import Mathlib

/-!
Verification of the conversation-archive pipeline: a shallow embedding of the
curl-replay chat extractor (curl command parsing, request validation and
derivation, subprocess result handling, conversation/message transformation,
and archive assembly), together with proofs of the specified properties.

Python strings are modelled as Lean `String` (a list of unicode code points,
matching Python's code-point indexing and lexicographic comparison); Python
dicts with fixed key sets are modelled as structures with `Option` fields for
possibly-missing keys; raised exceptions are modelled with `Option`/`Except`
results.  The timestamp formatter's datetime/zoneinfo core is abstracted as a
parameter `fmt : String → Option String` (`none` models any exception raised
while parsing/formatting); everything downstream of it is embedded directly
from the source.
-/

/-! ## Basic string utilities (Python semantics, code-point level) -/

/-- Boolean list-prefix test (used to model pattern matching on strings). -/
def isPrefixB : List Char → List Char → Bool
  | [], _ => true
  | _ :: _, [] => false
  | a :: as, b :: bs => a == b && isPrefixB as bs

/-- Boolean substring occurrence test: `containsSub s pat` models Python's
`pat in s` for strings. -/
def containsSub : List Char → List Char → Bool
  | [], pat => isPrefixB pat []
  | s@(_ :: rest), pat => isPrefixB pat s || containsSub rest pat

/-- Python's `pat in s` substring containment on `String`. -/
def strContains (s pat : String) : Bool := containsSub s.data pat.data

/-- Lexicographic (code-point) strict comparison on char lists: Python's
`<` on `str`. -/
def charsLt : List Char → List Char → Bool
  | [], [] => false
  | [], _ :: _ => true
  | _ :: _, [] => false
  | a :: as, b :: bs => if a < b then true else if b < a then false else charsLt as bs

/-- Python's `a < b` on strings (so `b > a` in the source is `strLt a b`). -/
def strLt (a b : String) : Bool := charsLt a.data b.data

/-- Python slicing `s[:n]` on a string. -/
def pyTake (s : String) (n : Nat) : String := ⟨s.data.take n⟩

/-- Python slicing `s[n:]` on a string. -/
def pyDrop (s : String) (n : Nat) : String := ⟨s.data.drop n⟩

/-- Python's `s.startswith(pre)`. -/
def pyStartsWith (s pre : String) : Bool := isPrefixB pre.data s.data

/-- Python `len(s)` for strings. -/
def pyLen (s : String) : Nat := s.data.length

/-- Characters stripped by Python's `str.strip()` (ASCII whitespace). -/
def isPySpace (c : Char) : Bool :=
  c == ' ' || c == '\t' || c == '\n' || c == '\r' || c == '\x0b' || c == '\x0c'

/-- Python's `s.strip()`. -/
def pyStrip (s : String) : String :=
  ⟨((s.data.dropWhile isPySpace).reverse.dropWhile isPySpace).reverse⟩

/-- Fuelled worker for Python's `str.replace`: scans left to right, replacing
each non-overlapping occurrence of `pat` and continuing after the replaced
region (the fuel is always instantiated with the length of the scanned list,
which suffices since each step consumes at least one character). -/
def replFuel (pat rep : List Char) : Nat → List Char → List Char
  | 0, l => l
  | _ + 1, [] => []
  | f + 1, c :: rest =>
    if !pat.isEmpty && isPrefixB pat (c :: rest) then
      rep ++ replFuel pat rep f ((c :: rest).drop pat.length)
    else
      c :: replFuel pat rep f rest

/-- Python's `s.replace(pat, rep)` on char lists (for nonempty `pat`). -/
def replChars (pat rep l : List Char) : List Char := replFuel pat rep l.length l

/-- Python's `s.replace(pat, rep)` on strings. -/
def pyReplace (s pat rep : String) : String := ⟨replChars pat.data rep.data s.data⟩

/-! ## data_formatter.py: timestamp formatting -/

/-- A Python value that may be passed to `format_timestamp` (the source is
called both with strings and, via `item.get('created_at')`, with `None`). -/
inductive PyVal where
  | str (s : String)
  | pynone
deriving DecidableEq

/-- Embedding of `format_timestamp` (data_formatter.py:13).  The
`datetime.fromisoformat / astimezone / strftime` pipeline on the Z-normalized
string is abstracted as `fmt`; `fmt s = none` models any exception raised in
the `try` body (including unparsable timestamps), in which case the source
returns the original input.  A non-string argument makes `ts_string.replace`
raise `AttributeError`, which the bare `except` also catches, returning the
input unchanged. -/
def format_timestamp (fmt : String → Option String) : PyVal → PyVal
  | .str s =>
    match fmt s with
    | some out => .str out
    | none => .str s
  | .pynone => .pynone

/-- String-input case of `format_timestamp`, as used by `transform_raw_chats`
on the (string) timestamp fields of raw records. -/
def fmtStr (fmt : String → Option String) (s : String) : String := (fmt s).getD s

/-! ## data_formatter.py: transform_raw_chats -/

/-- A raw conversation record from the API; `none` fields model missing
dict keys (accessing them raises `KeyError` in the source). -/
structure RawChat where
  name : Option String
  uuid : Option String
  created_at : Option String
  updated_at : Option String
deriving DecidableEq

/-- A cleaned conversation record as built by `transform_raw_chats`. -/
structure CleanedChat where
  name : String
  uuid : String
  created_at : String
  updated_at : String
  bucket : String
deriving DecidableEq

/-- One step of the most-recent-conversation tracking in
`transform_raw_chats` (data_formatter.py:70-72): the state is
`some (most_recent_chat, most_recent_ts)` once set; the raw `updated_at`
string comparison is strict, so an exact tie keeps the earlier record. -/
def mrStep (mr : Option (String × String)) (uuid ts : String) : Option (String × String) :=
  match mr with
  | none => some (uuid, ts)
  | some (u, t) => if strLt t ts then some (uuid, ts) else some (u, t)

/-- Loop of `transform_raw_chats` (data_formatter.py:52-75): a record missing
any of the four keys raises `KeyError` during the dict build and is skipped
(`continue`), which also skips the most-recent update for that record. -/
def transformGo (fmt : String → Option String) :
    List RawChat → Option (String × String) → List CleanedChat →
      Option String × List CleanedChat
  | [], mr, acc => (mr.map (·.1), acc)
  | c :: rest, mr, acc =>
    match c.name, c.uuid, c.created_at, c.updated_at with
    | some n, some u, some cr, some up =>
      transformGo fmt rest (mrStep mr u up)
        (acc ++ [{ name := n, uuid := u, created_at := fmtStr fmt cr,
                   updated_at := fmtStr fmt up, bucket := pyTake (fmtStr fmt up) 10 }])
    | _, _, _, _ => transformGo fmt rest mr acc

/-- Embedding of `transform_raw_chats` (data_formatter.py:36). -/
def transform_raw_chats (fmt : String → Option String) (raw : List RawChat) :
    Option String × List CleanedChat :=
  transformGo fmt raw none []

/-- The `(uuid, raw updated_at)` pairs of the records having all four
required keys, in input order (the records that are not skipped). -/
def validPairs : List RawChat → List (String × String)
  | [] => []
  | c :: rest =>
    match c.name, c.uuid, c.created_at, c.updated_at with
    | some _, some u, some _, some up => (u, up) :: validPairs rest
    | _, _, _, _ => validPairs rest

/-- Modelled from the spec's words for comparison with the code: the uuid of
the record whose raw `updated_at` string is maximal under string comparison,
the earliest such record being chosen on exact ties, and `none` when there is
no valid record. -/
def spec_most_recent_uuid (pairs : List (String × String)) : Option String :=
  (pairs.find? fun p => pairs.all fun q => !(strLt p.2 q.2)).map (·.1)

/-- Folding `mrStep` over the valid pairs (proof-side restatement of the
most-recent tracking, related to `transformGo` by `transformGo_fst`). -/
def foldMR : Option (String × String) → List (String × String) → Option (String × String)
  | mr, [] => mr
  | mr, (u, t) :: ps => foldMR (mrStep mr u t) ps

/-! ## data_formatter.py: parse_conversation / parse_message -/

/-- An element of a message's `content` list; `text = none` models a dict
without the `'text'` key. -/
structure ContentObj where
  text : Option String
deriving DecidableEq

/-- An element of the `chat_messages` list: either a dict (with possibly
missing keys, modelled by `Option`) or a non-dict value, which the source
skips via its `isinstance` check. -/
inductive MsgItem where
  | dict (sender : Option String) (content : Option (List ContentObj))
      (created_at : Option String)
  | nondict
deriving DecidableEq

/-- A parsed message record (`message_info` in the source): `msg = none`
models Python `None` (absent text), `ts = none` the `None` returned by
`format_timestamp` on a missing `created_at`. -/
structure MessageInfo where
  author : String
  msg : Option String
  ts : Option String
deriving DecidableEq

/-- Exceptions that `parse_conversation`/`parse_message` can raise. -/
inductive PyErr where
  | typeError
  | keyError
deriving DecidableEq

/-- The conversation-detail object: `chat_messages = none` models a missing
key. -/
structure ConvData where
  chat_messages : Option (List MsgItem)
deriving DecidableEq

/-- Embedding of `parse_message` (data_formatter.py:116): looping over the
content list and returning from the first iteration; an empty list falls
through the loop and returns `None`; iterating over `None` (missing
`'content'` key) raises `TypeError`; a first element without `'text'` raises
`KeyError`. -/
def parse_message : Option (List ContentObj) → Except PyErr (Option String)
  | none => .error .typeError
  | some [] => .ok none
  | some (x :: _) =>
    match x.text with
    | some t => .ok (some t)
    | none => .error .keyError

/-- Processing of one `chat_messages` item in `parse_conversation`
(data_formatter.py:104-112): non-dict items are skipped (`ok none`); for dict
items the `message_info` record is built, propagating any exception raised by
`parse_message`. -/
def processItem (fmt : String → Option String) : MsgItem → Except PyErr (Option MessageInfo)
  | .nondict => .ok none
  | .dict sender content created =>
    match parse_message content with
    | .error e => .error e
    | .ok t =>
      .ok (some { author := sender.getD "unknown", msg := t,
                  ts := created.map (fmtStr fmt) })

/-- Loop of `parse_conversation` over the message items, collecting the
records and propagating the first raised exception. -/
def parseItemsGo (fmt : String → Option String) : List MsgItem → Except PyErr (List MessageInfo)
  | [] => .ok []
  | i :: rest =>
    match processItem fmt i with
    | .error e => .error e
    | .ok none => parseItemsGo fmt rest
    | .ok (some r) => (parseItemsGo fmt rest).map (r :: ·)

/-- Embedding of `parse_conversation` (data_formatter.py:83): falsy input or
a missing/falsy `chat_messages` value yields `[]`. -/
def parse_conversation (fmt : String → Option String) :
    Option ConvData → Except PyErr (List MessageInfo)
  | none => .ok []
  | some d =>
    match d.chat_messages with
    | none => .ok []
    | some [] => .ok []
    | some (i :: rest) => parseItemsGo fmt (i :: rest)

/-! ## api_client.py: execute_curl_command -/

/-- The captured outcome of `subprocess.run`: exit status and the captured
text streams. -/
structure SubprocResult where
  returncode : Int
  stdout : String
  stderr : String
deriving DecidableEq

/-- The response dict built by `execute_curl_command`, with one `Option`
field per key that may be present. -/
structure ExecResponse (α : Type) where
  success : Bool
  data : Option α
  error : Option String
  stderr : Option String
  rawResponse : Option String
deriving DecidableEq

/-- Embedding of `execute_curl_command` (api_client.py:14) given the
subprocess outcome.  `json.loads` is abstracted as `jsonLoads` (`.error e`
models `JSONDecodeError` with message `e`).  On a non-zero exit status the
diagnostic gets an expired-session hint when stderr contains `"403"` or
`"Forbidden"`, otherwise (elif) a wrong-endpoint hint when it contains
`"404"`; on a zero exit status with unparsable output the raw output is
truncated to a 200-character prefix. -/
def execute_curl_command {α : Type} (jsonLoads : String → Except String α)
    (res : SubprocResult) : ExecResponse α :=
  if res.returncode ≠ 0 then
    let base := "cURL failed with return code " ++ toString res.returncode
    let msg :=
      if strContains res.stderr "403" || strContains res.stderr "Forbidden" then
        base ++ "\n❌ Authentication failed (403 Forbidden)" ++
          "\nYour session may have expired. Please get a fresh cURL command."
      else if strContains res.stderr "404" then
        base ++ "\n❌ API endpoint not found (404)" ++
          "\nCheck if the URL in your cURL command is correct."
      else base
    { success := false, data := none, error := some msg,
      stderr := some res.stderr, rawResponse := none }
  else
    match jsonLoads res.stdout with
    | .ok d =>
      { success := true, data := some d, error := none,
        stderr := none, rawResponse := none }
    | .error e =>
      { success := false, data := none,
        error := some ("Failed to parse response as JSON: " ++ e),
        stderr := none,
        rawResponse := some (if pyLen res.stdout > 200
          then pyTake res.stdout 200 ++ "..." else res.stdout) }

/-! ## curl_parser.py: shlex tokenization

`shlex.split` in its default POSIX mode with whitespace splitting, as invoked
by `parse_curl_command` and `extract_messages`: whitespace separates tokens;
single quotes are fully literal; inside double quotes a backslash escapes
only `"` and `\`; outside quotes a backslash escapes any character; an
unterminated quote raises "No closing quotation" and a trailing escape raises
"No escaped character". -/

/-- Scanner state of the `shlex` state machine. -/
inductive SState where
  | out
  | word
  | sq
  | dq
  | escW
  | escD
deriving DecidableEq

/-- The two `ValueError`s `shlex.split` can raise. -/
inductive ShErr where
  | noClosingQuote
  | noEscapedChar
deriving DecidableEq

/-- `shlex` token-separating whitespace (`shlex.whitespace`). -/
def isShWs (c : Char) : Bool := c == ' ' || c == '\t' || c == '\r' || c == '\n'

/-- Emit a finished token: in POSIX mode an empty token is kept only when it
was quoted (`started`). -/
def emitTok (tok : List Char) (started : Bool) (acc : List (List Char)) :
    List (List Char) :=
  acc ++ (if tok.isEmpty && !started then [] else [tok])

/-- The `shlex.split` state machine, one character per step. -/
def shlexCore (st : SState) (started : Bool) (tok : List Char)
    (acc : List (List Char)) : List Char → Except ShErr (List (List Char))
  | [] =>
    match st with
    | .out => .ok acc
    | .word => .ok (emitTok tok started acc)
    | .sq => .error .noClosingQuote
    | .dq => .error .noClosingQuote
    | .escW => .error .noEscapedChar
    | .escD => .error .noEscapedChar
  | c :: rest =>
    match st with
    | .out =>
      if isShWs c then shlexCore .out false [] acc rest
      else if c == '\'' then shlexCore .sq true tok acc rest
      else if c == '"' then shlexCore .dq true tok acc rest
      else if c == '\\' then shlexCore .escW started tok acc rest
      else shlexCore .word started (tok ++ [c]) acc rest
    | .word =>
      if isShWs c then shlexCore .out false [] (emitTok tok started acc) rest
      else if c == '\'' then shlexCore .sq true tok acc rest
      else if c == '"' then shlexCore .dq true tok acc rest
      else if c == '\\' then shlexCore .escW started tok acc rest
      else shlexCore .word started (tok ++ [c]) acc rest
    | .sq =>
      if c == '\'' then shlexCore .word started tok acc rest
      else shlexCore .sq started (tok ++ [c]) acc rest
    | .dq =>
      if c == '"' then shlexCore .word started tok acc rest
      else if c == '\\' then shlexCore .escD started tok acc rest
      else shlexCore .dq started (tok ++ [c]) acc rest
    | .escW => shlexCore .word started (tok ++ [c]) acc rest
    | .escD =>
      if c == '"' || c == '\\' then shlexCore .dq started (tok ++ [c]) acc rest
      else shlexCore .dq started (tok ++ ['\\', c]) acc rest

/-- `shlex.split` on a string. -/
def shlexSplit (s : String) : Except ShErr (List String) :=
  (shlexCore .out false [] [] s.data).map (·.map fun l => (⟨l⟩ : String))

/-! ## curl_parser.py: parse / extract / validate -/

/-- The common preprocessing of the captured command text
(curl_parser.py:24-28, repeated verbatim in api_client.py:174-176): join
backslash continuations into spaces and strip a leading `curl `. -/
def preprocessCurl (curl_text : String) : String :=
  let c1 := pyReplace curl_text " \\\n" " "
  let c2 := pyReplace c1 "\\\n" " "
  if pyStartsWith c2 "curl " then pyDrop c2 5 else c2

/-- Embedding of `parse_curl_command` (curl_parser.py:10): join backslash
continuations, strip a leading `curl `, tokenize with `shlex.split`, prepend
`curl`; a tokenization `ValueError` is caught and `None` returned. -/
def parse_curl_command (curl_text : String) : Option (List String) :=
  match shlexSplit (preprocessCurl curl_text) with
  | .ok args => some ("curl" :: args)
  | .error _ => none

/-- Embedding of `extract_url` (curl_parser.py:44). -/
def extract_url (curl_args : List String) : String :=
  match curl_args with
  | _ :: u :: _ => u
  | _ => "Not found"

/-- The character class `[a-f0-9-]` of the organization-id pattern. -/
def isOrgChar (c : Char) : Bool :=
  ('a' ≤ c && c ≤ 'f') || ('0' ≤ c && c ≤ '9') || c == '-'

/-- The literal part `/organizations/` of the organization-id pattern. -/
def orgPat : List Char := "/organizations/".data

/-- Try to match `/organizations/([a-f0-9-]+)/` at the head of `l` and return
the group.  The greedy `+` cannot backtrack usefully here because `/` is not
in the character class, so the pattern matches at this position exactly when
the maximal class run after the literal is nonempty and followed by `/`. -/
def matchOrgAt (l : List Char) : Option (List Char) :=
  if isPrefixB orgPat l then
    let after := l.drop 15
    let run := after.takeWhile isOrgChar
    if run.isEmpty then none
    else
      match after.dropWhile isOrgChar with
      | d :: _ => if d == '/' then some run else none
      | [] => none
  else none

/-- `re.search` of the organization-id pattern: leftmost match wins. -/
def findOrgId : List Char → Option (List Char)
  | [] => none
  | c :: rest =>
    match matchOrgAt (c :: rest) with
    | some r => some r
    | none => findOrgId rest

/-- Embedding of `extract_org_id` (curl_parser.py:58). -/
def extract_org_id (url : String) : Option String :=
  (findOrgId url.data).map fun l => (⟨l⟩ : String)

/-- Result of `validate_curl_command` (the returned dict is either
`{'valid': False, 'error': ...}` or `{'valid': True, 'url': ..., 'org_id':
..., 'arg_count': ...}`). -/
inductive ValidationResult where
  | invalid (error : String)
  | valid (url : String) (org_id : String) (arg_count : Nat)
deriving DecidableEq

/-- Embedding of `validate_curl_command` (curl_parser.py:73). -/
def validate_curl_command (curl_args : List String) : ValidationResult :=
  if curl_args.length < 2 then .invalid "Invalid cURL command format"
  else
    let url := extract_url curl_args
    if !(strContains url "claude.ai") then
      .invalid "URL does not appear to be a Claude API endpoint"
    else
      match extract_org_id url with
      | none => .invalid "Could not extract organization ID from URL"
      | some oid => .valid url oid curl_args.length

/-! ## api_client.py: build_messages_curl / extract_messages -/

/-- The per-conversation messages URL built by `build_messages_curl`
(api_client.py:149). -/
def messages_url (org_id chat_uuid : String) : String :=
  "https://claude.ai/api/organizations/" ++ org_id ++ "/chat_conversations/" ++
    chat_uuid ++ "?tree=True&rendering_mode=messages&render_all_tools=true"

/-- Try to match `curl '([^']+)'` at the head of `l`; on success return the
group and the remainder after the closing quote.  As with the org pattern,
`[^']+` cannot backtrack past its own characters, so a match needs a nonempty
maximal quote-free run followed by `'`. -/
def matchCurlQuote (l : List Char) : Option (List Char × List Char) :=
  if isPrefixB "curl '".data l then
    let after := l.drop 6
    let u := after.takeWhile (fun c => !(c == '\''))
    if u.isEmpty then none
    else
      match after.dropWhile (fun c => !(c == '\'')) with
      | _ :: rem => some (u, rem)
      | [] => none
  else none

/-- One piece of a parsed `re.sub` replacement template: a literal character,
a reference to group 0 (the whole match) or a reference to group 1 (the only
group of `curl '([^']+)'`). -/
inductive ReplPiece where
  | lit (c : Char)
  | group0
  | group1
deriving DecidableEq

/-- Digit value of a character relative to `'0'`. -/
def digVal (c : Char) : Nat := c.toNat - '0'.toNat

/-- ASCII decimal digit. -/
def isDigitCh (c : Char) : Bool := '0' ≤ c && c ≤ '9'

/-- ASCII octal digit. -/
def isOctDigit (c : Char) : Bool := '0' ≤ c && c ≤ '7'

/-- ASCII letter (the class `sre_parse.ASCIILETTERS`). -/
def isAsciiLetter (c : Char) : Bool := ('a' ≤ c && c ≤ 'z') || ('A' ≤ c && c ≤ 'Z')

/-- The fixed escape table `sre_parse.ESCAPES` restricted to its character
result (`\a \b \f \n \r \t \v \\`). -/
def escChar (c : Char) : Option Char :=
  if c == 'a' then some '\x07'
  else if c == 'b' then some '\x08'
  else if c == 'f' then some '\x0C'
  else if c == 'n' then some '\n'
  else if c == 'r' then some '\x0D'
  else if c == 't' then some '\t'
  else if c == 'v' then some '\x0B'
  else if c == '\\' then some '\\'
  else none

/-- Up to two leading octal digits (the continuation of a `\0dd` octal
escape). -/
def octPrefix2 : List Char → List Char
  | [] => []
  | c :: rest =>
    if isOctDigit c then
      match rest with
      | [] => [c]
      | d :: _ => if isOctDigit d then [c, d] else [c]
    else []

/-- Octal value of at most two digits. -/
def octListVal : List Char → Nat
  | [] => 0
  | [c] => digVal c
  | c :: d :: _ => 8 * digVal c + digVal d

/-- Decimal value of a digit string (as Python's `int`). -/
def digitsVal (l : List Char) : Nat := l.foldl (fun a c => 10 * a + digVal c) 0

/-- Fuelled worker modelling `sre_parse.parse_template` for a pattern with
exactly one group: `\g<0>`/`\g<1>` and `\0`/`\1` are group references (group
numbers above 1 are an invalid group reference, hence `re.error`); `\0dd` and
`\ddd` (three octal digits, at most `0o377`) are octal character escapes;
`\a \b \f \n \r \t \v \\` are the fixed character escapes; a backslash before
any other ASCII letter, a trailing backslash, and every malformed `\g<...>`
raise `re.error` (all modelled as `none`, since the caller catches every
exception); a backslash before any other character stays literally.  The fuel
is instantiated with one more than the template length. -/
def parseTemplateFuel : Nat → List Char → Option (List ReplPiece)
  | _ + 1, [] => some []
  | 0, _ => none
  | f + 1, c :: rest =>
    if c == '\\' then
      match rest with
      | [] => none
      | e :: rest2 =>
        if e == 'g' then
          match rest2 with
          | '<' :: rest3 =>
            match rest3.dropWhile (fun x => !(x == '>')) with
            | _ :: rest4 =>
              let name := rest3.takeWhile (fun x => !(x == '>'))
              if name.isEmpty then none
              else if name.all isDigitCh then
                if digitsVal name == 0 then
                  (parseTemplateFuel f rest4).map (.group0 :: ·)
                else if digitsVal name == 1 then
                  (parseTemplateFuel f rest4).map (.group1 :: ·)
                else none
              else none
            | [] => none
          | _ => none
        else if e == '0' then
          let ds := octPrefix2 rest2
          (parseTemplateFuel f (rest2.drop ds.length)).map
            (.lit (Char.ofNat (octListVal ds)) :: ·)
        else if isDigitCh e then
          match rest2 with
          | d2 :: rest3 =>
            if isDigitCh d2 then
              match rest3 with
              | d3 :: rest4 =>
                if isOctDigit e && isOctDigit d2 && isOctDigit d3 then
                  if 64 * digVal e + 8 * digVal d2 + digVal d3 > 255 then none
                  else
                    (parseTemplateFuel f rest4).map
                      (.lit (Char.ofNat (64 * digVal e + 8 * digVal d2 + digVal d3)) :: ·)
                else none
              | [] => none
            else if e == '1' then (parseTemplateFuel f rest2).map (.group1 :: ·)
            else none
          | [] =>
            if e == '1' then (parseTemplateFuel f rest2).map (.group1 :: ·)
            else none
        else
          match escChar e with
          | some ch => (parseTemplateFuel f rest2).map (.lit ch :: ·)
          | none =>
            if isAsciiLetter e then none
            else (parseTemplateFuel f rest2).map (fun ps => .lit '\\' :: .lit e :: ps)
    else (parseTemplateFuel f rest).map (.lit c :: ·)

/-- `sre_parse.parse_template` on the replacement text; `none` models
`re.error`.  `re.sub` parses the template up front, before any match is
attempted. -/
def parseTemplate (l : List Char) : Option (List ReplPiece) :=
  parseTemplateFuel (l.length + 1) l

/-- Expand a parsed template at one match: group 0 is the whole matched text,
group 1 the URL group. -/
def renderTemplate (tmpl : List ReplPiece) (whole grp : List Char) : List Char :=
  match tmpl with
  | [] => []
  | .lit c :: ps => c :: renderTemplate ps whole grp
  | .group0 :: ps => whole ++ renderTemplate ps whole grp
  | .group1 :: ps => grp ++ renderTemplate ps whole grp

/-- Fuelled worker for `re.sub(r"curl '([^']+)'", ...)`: scan left to right,
expand the parsed replacement template at every non-overlapping match
(group 0 = `curl '<url>'`, group 1 = `<url>`), continue after each
replacement. -/
def reSubFuel (tmpl : List ReplPiece) : Nat → List Char → List Char
  | 0, l => l
  | _ + 1, [] => []
  | f + 1, c :: rest =>
    match matchCurlQuote (c :: rest) with
    | some (u, rem) =>
      renderTemplate tmpl ("curl '".data ++ u ++ ['\'']) u ++ reSubFuel tmpl f rem
    | none => c :: reSubFuel tmpl f rest

/-- `re.sub(r"curl '([^']+)'", ·, ·)` on char lists, given the parsed
replacement template. -/
def reSubCurl (tmpl : List ReplPiece) (l : List Char) : List Char :=
  reSubFuel tmpl l.length l

/-- Embedding of `build_messages_curl` (api_client.py:131), parameterized by
the text of the base cURL file (the source reads and strips it).  The
organization id is searched in the stripped text before continuation joining;
a missing id raises, is caught, and yields `None`.  The `re.sub` replacement
`f"curl '{messages_url}'"` is first parsed as a replacement template, so a
backslash inside the conversation id can make it a group reference or an
octal/character escape, or raise `re.error` — which the surrounding `except`
also turns into `None`. -/
def build_messages_curl (base_file_text chat_uuid : String) : Option String :=
  let base := pyStrip base_file_text
  match findOrgId base.data with
  | none => none
  | some org =>
    let murl := messages_url ⟨org⟩ chat_uuid
    let b2 := pyReplace (pyReplace base " \\\n" " ") "\\\n" " "
    match parseTemplate ("curl '" ++ murl ++ "'").data with
    | none => none
    | some tmpl => some ⟨reSubCurl tmpl b2.data⟩

/-- The tokenization performed inline by `extract_messages`
(api_client.py:174-180) on the command built by `build_messages_curl`: the
same joining/stripping/`shlex.split` steps as `parse_curl_command`, with
`curl` prepended.  `none` covers both a failed build and a tokenization
error. -/
def extract_messages_args (base_file_text chat_uuid : String) : Option (List String) :=
  match build_messages_curl base_file_text chat_uuid with
  | none => none
  | some t =>
    match shlexSplit (preprocessCurl t) with
    | .ok args => some ("curl" :: args)
    | .error _ => none

/-! ## app.py: archive assembly -/

/-- The per-conversation archive entry (`chat_obj` in app.py:63-74). -/
structure ChatObj where
  name : String
  uuid : String
  msg_list : List MessageInfo
  arch_dt : String
  create_dt : String
  update_dt : String
  file_name : String
deriving DecidableEq

/-- Building one `chat_obj` (app.py:65-74); the per-conversation message
fetch `generate_message_list_from_uuid` is abstracted as `lookup`. -/
def mkChatObj (lookup : String → List MessageInfo) (cur_dt : String)
    (c : CleanedChat) : ChatObj :=
  { name := c.name, uuid := c.uuid, msg_list := lookup c.uuid,
    arch_dt := cur_dt, create_dt := c.created_at, update_dt := c.updated_at,
    file_name := c.bucket ++ "_" ++ c.name }

/-- `conversations.get(bucket)` on the insertion-ordered dict, modelled as an
association list. -/
def dictGet (m : List (String × List ChatObj)) (b : String) : Option (List ChatObj) :=
  match m with
  | [] => none
  | (k, v) :: rest => if k == b then some v else dictGet rest b

/-- `conversations[bucket] = v`: replace in place if the key exists,
otherwise append (Python dicts preserve insertion order). -/
def dictSet (m : List (String × List ChatObj)) (b : String) (v : List ChatObj) :
    List (String × List ChatObj) :=
  match m with
  | [] => [(b, v)]
  | (k, w) :: rest => if k == b then (k, v) :: rest else (k, w) :: dictSet rest b v

/-- One iteration of the bucketing loop (app.py:63-85).  The source tests
`if not dict_key_exists`, which is also true for a present-but-empty list, so
the embedding tests the fetched value's emptiness rather than key presence;
`last_convo` is overwritten whenever the entry's uuid equals
`last_convo_uuid` (a `None` uuid never equals a string). -/
def bucketStep (lookup : String → List MessageInfo) (cur_dt : String)
    (last_uuid : Option String) (st : Option ChatObj × List (String × List ChatObj))
    (c : CleanedChat) : Option ChatObj × List (String × List ChatObj) :=
  let obj := mkChatObj lookup cur_dt c
  let last := if last_uuid == some obj.uuid then some obj else st.1
  let ex := (dictGet st.2 c.bucket).getD []
  let m :=
    if ex.isEmpty then dictSet st.2 c.bucket [obj]
    else dictSet st.2 c.bucket (ex ++ [obj])
  (last, m)

/-- The bucketing loop of `main` (app.py:63-85) over the cleaned chats. -/
def assemble_conversations (lookup : String → List MessageInfo) (cur_dt : String)
    (last_uuid : Option String) (chats : List CleanedChat) :
    Option ChatObj × List (String × List ChatObj) :=
  chats.foldl (bucketStep lookup cur_dt last_uuid) (none, [])

/-- The master archive object (app.py:115-122). -/
structure MasterObj where
  last_convo : Option ChatObj
  conversations : List (String × List ChatObj)
deriving DecidableEq

/-- Embedding of `build_master_object` (app.py:115). -/
def build_master_object (last_convo : Option ChatObj)
    (conversations : List (String × List ChatObj)) : MasterObj :=
  { last_convo := last_convo, conversations := conversations }

/-- Join lines with a separator (used to state the multi-line versus
single-line equivalence of the parser: the captured command either written
with trailing-backslash continuations or on one line). -/
def joinWith (sep : String) : List String → String
  | [] => ""
  | [l] => l
  | l :: ls => l ++ sep ++ joinWith sep ls

/-- `maxIn L p` says the pair `p` is maximal (by raw `updated_at`) among the
pairs of `L`. -/
def maxIn (L : List (String × String)) (p : String × String) : Bool :=
  L.all fun q => !(strLt p.2 q.2)

/-- First maximal pair of a list (ties resolved to the earliest). -/
def firstMax (L : List (String × String)) : Option (String × String) :=
  L.find? (maxIn L)

/-! # Theorems -/

/-! ## Basic lemmas about the string utilities -/

theorem isPrefixB_iff (p l : List Char) : isPrefixB p l = true ↔ ∃ t, l = p ++ t := by
  induction p generalizing l with
  | nil => simp [isPrefixB]
  | cons a as ih =>
    cases l with
    | nil => simp [isPrefixB]
    | cons b bs =>
      simp only [isPrefixB, Bool.and_eq_true, beq_iff_eq, ih]
      constructor
      · rintro ⟨rfl, t, rfl⟩
        exact ⟨t, rfl⟩
      · rintro ⟨t, h⟩
        cases h
        exact ⟨rfl, t, rfl⟩

theorem isPrefixB_append (p t : List Char) : isPrefixB p (p ++ t) = true :=
  (isPrefixB_iff p (p ++ t)).mpr ⟨t, rfl⟩

theorem containsSub_iff (l pat : List Char) :
    containsSub l pat = true ↔ ∃ pre t, l = pre ++ pat ++ t := by
  induction l with
  | nil =>
    simp only [containsSub, isPrefixB_iff]
    constructor
    · rintro ⟨t, h⟩
      exact ⟨[], t, h⟩
    · rintro ⟨pre, t, h⟩
      rcases List.append_eq_nil.mp (List.append_eq_nil.mp h.symm).1 with ⟨h1, h2⟩
      exact ⟨t, by simp [h2, (List.append_eq_nil.mp h.symm).2]⟩
  | cons c rest ih =>
    simp only [containsSub, Bool.or_eq_true, isPrefixB_iff, ih]
    constructor
    · rintro (⟨t, h⟩ | ⟨pre, t, h⟩)
      · exact ⟨[], t, by simpa using h⟩
      · exact ⟨c :: pre, t, by simp [h]⟩
    · rintro ⟨pre, t, h⟩
      cases pre with
      | nil => exact Or.inl ⟨t, by simpa using h⟩
      | cons x xs =>
        right
        refine ⟨xs, t, ?_⟩
        simpa using congrArg List.tail h

theorem containsSub_append_right (x y pat : List Char)
    (h : containsSub y pat = true) : containsSub (x ++ y) pat = true := by
  rcases (containsSub_iff y pat).mp h with ⟨pre, t, rfl⟩
  exact (containsSub_iff _ pat).mpr ⟨x ++ pre, t, by simp⟩

theorem charsLt_irrefl (l : List Char) : charsLt l l = false := by
  induction l with
  | nil => rfl
  | cons a as ih => simp [charsLt, ih]

theorem charsLt_cons_iff (a b : Char) (as bs : List Char) :
    charsLt (a :: as) (b :: bs) = true ↔ a < b ∨ (a = b ∧ charsLt as bs = true) := by
  simp only [charsLt]
  by_cases h1 : a < b
  · simp [h1]
  · by_cases h2 : b < a
    · rw [if_neg h1, if_pos h2]
      constructor
      · intro h
        cases h
      · rintro (h | ⟨rfl, _⟩)
        · exact absurd h h1
        · exact absurd h2 (lt_irrefl a)
    · have hab : a = b := le_antisymm (not_lt.mp h2) (not_lt.mp h1)
      simp [h1, h2, hab]

theorem charsLt_trans {a b c : List Char} (h1 : charsLt a b = true)
    (h2 : charsLt b c = true) : charsLt a c = true := by
  induction a generalizing b c with
  | nil =>
    cases b with
    | nil => simp [charsLt] at h1
    | cons x xs =>
      cases c with
      | nil => simp [charsLt] at h2
      | cons y ys => simp [charsLt]
  | cons p ps ih =>
    cases b with
    | nil => simp [charsLt] at h1
    | cons x xs =>
      cases c with
      | nil => simp [charsLt] at h2
      | cons y ys =>
        rw [charsLt_cons_iff] at h1 h2 ⊢
        rcases h1 with h1 | ⟨rfl, h1⟩
        · rcases h2 with h2 | ⟨rfl, h2⟩
          · exact Or.inl (lt_trans h1 h2)
          · exact Or.inl h1
        · rcases h2 with h2 | ⟨rfl, h2⟩
          · exact Or.inl h2
          · exact Or.inr ⟨rfl, ih h1 h2⟩

theorem charsLt_trichotomy (a b : List Char) :
    charsLt a b = true ∨ a = b ∨ charsLt b a = true := by
  induction a generalizing b with
  | nil =>
    cases b with
    | nil => simp
    | cons x xs => simp [charsLt]
  | cons p ps ih =>
    cases b with
    | nil => simp [charsLt]
    | cons x xs =>
      rcases lt_trichotomy p x with h | h | h
      · exact Or.inl (by simp [charsLt, h])
      · subst h
        rcases ih xs with h2 | h2 | h2
        · exact Or.inl (by simp [charsLt, lt_irrefl, h2])
        · exact Or.inr (Or.inl (by rw [h2]))
        · exact Or.inr (Or.inr (by simp [charsLt, lt_irrefl, h2]))
      · exact Or.inr (Or.inr (by simp [charsLt, h, not_lt.mpr (le_of_lt h)]))

/-! ## C10: totality of format_timestamp -/

/-- C10: `format_timestamp` never raises: it is a total function of its
input, and whenever the abstracted ISO-8601 parse/format pipeline fails
(`fmt s = none`), or the input is not a string at all (Python `None`), the
input value is returned unchanged; on a string input the result is always
the string `fmtStr fmt s`. -/
theorem format_timestamp_total_spec :
    (∀ fmt s, fmt s = none → format_timestamp fmt (.str s) = .str s) ∧
    (∀ fmt, format_timestamp fmt .pynone = .pynone) ∧
    (∀ fmt s, format_timestamp fmt (.str s) = .str (fmtStr fmt s)) := by
  refine ⟨?_, ?_, ?_⟩
  · intro fmt s h
    simp [format_timestamp, h]
  · intro fmt
    rfl
  · intro fmt s
    cases h : fmt s <;> simp [format_timestamp, fmtStr, h]

/-- Witness for `format_timestamp_total_spec` at a concrete unparsable
input. -/
theorem format_timestamp_total_spec_witness :
    format_timestamp (fun _ => none) (.str "not-a-timestamp") = .str "not-a-timestamp" :=
  format_timestamp_total_spec.1 (fun _ => none) "not-a-timestamp" rfl

/-! ## C8: empty message content is safe -/

/-- C8: a message item whose `content` list is empty is processed without any
exception (`.ok`, no index error), and the resulting record's text is absent:
`parse_message` falls through its loop and returns `None`, and
`parse_conversation` of a conversation holding such an item yields a record
with `msg = none`. -/
theorem parse_message_empty_content_safe :
    parse_message (some ([] : List ContentObj)) = .ok none ∧
    (∀ fmt sender created,
      processItem fmt (.dict sender (some []) created) =
        .ok (some { author := sender.getD "unknown", msg := none,
                    ts := created.map (fmtStr fmt) })) ∧
    (∀ fmt sender created,
      parse_conversation fmt (some ⟨some [.dict sender (some []) created]⟩) =
        .ok [{ author := sender.getD "unknown", msg := none,
               ts := created.map (fmtStr fmt) }]) :=
  ⟨rfl, fun _ _ _ => rfl, fun _ _ _ => rfl⟩

/-! ## C9: bucket is the 10-character date prefix of updated_at -/

theorem transformGo_snd_mem (fmt : String → Option String) :
    ∀ (raw : List RawChat) (mr : Option (String × String)) (acc : List CleanedChat)
      (c : CleanedChat), c ∈ (transformGo fmt raw mr acc).2 →
        c ∈ acc ∨ c.bucket = pyTake c.updated_at 10 := by
  intro raw
  induction raw with
  | nil =>
    intro mr acc c h
    exact Or.inl h
  | cons r rest ih =>
    intro mr acc c h
    simp only [transformGo] at h
    cases hn : r.name with
    | none =>
      rw [hn] at h
      exact ih _ _ c h
    | some n =>
      cases hu : r.uuid with
      | none =>
        rw [hn, hu] at h
        exact ih _ _ c h
      | some u =>
        cases hc : r.created_at with
        | none =>
          rw [hn, hu, hc] at h
          exact ih _ _ c h
        | some cr =>
          cases hup : r.updated_at with
          | none =>
            rw [hn, hu, hc, hup] at h
            exact ih _ _ c h
          | some up =>
            rw [hn, hu, hc, hup] at h
            rcases ih _ _ c h with hacc | hb
            · rcases List.mem_append.mp hacc with h1 | h2
              · exact Or.inl h1
              · right
                rcases List.mem_singleton.mp h2 with rfl
                rfl
            · exact Or.inr hb

/-- C9: every cleaned conversation produced by `transform_raw_chats` has its
`bucket` equal to the first 10 characters (Python `[:10]`) of its own
formatted `updated_at` field. -/
theorem cleaned_bucket_is_date_prefix (fmt : String → Option String)
    (raw : List RawChat) (c : CleanedChat)
    (h : c ∈ (transform_raw_chats fmt raw).2) :
    c.bucket = pyTake c.updated_at 10 := by
  rcases transformGo_snd_mem fmt raw none [] c h with h0 | hb
  · cases h0
  · exact hb

/-- Witness for `cleaned_bucket_is_date_prefix` at a concrete record. -/
theorem cleaned_bucket_is_date_prefix_witness :
    ({ name := "A", uuid := "1", created_at := "t1",
       updated_at := "2024-01-02T00:00:00Z",
       bucket := "2024-01-02" } : CleanedChat).bucket =
      pyTake ({ name := "A", uuid := "1", created_at := "t1",
                updated_at := "2024-01-02T00:00:00Z",
                bucket := "2024-01-02" } : CleanedChat).updated_at 10 :=
  cleaned_bucket_is_date_prefix (fun _ => none)
    [{ name := some "A", uuid := some "1", created_at := some "t1",
       updated_at := some "2024-01-02T00:00:00Z" }]
    { name := "A", uuid := "1", created_at := "t1",
      updated_at := "2024-01-02T00:00:00Z", bucket := "2024-01-02" }
    (by decide)

/-! ## C1: most_recent_uuid is the first maximum of the raw updated_at -/

theorem strLt_irrefl (a : String) : strLt a a = false := charsLt_irrefl a.data

theorem strLt_trans {a b c : String} (h1 : strLt a b = true)
    (h2 : strLt b c = true) : strLt a c = true := charsLt_trans h1 h2

theorem strLt_cases (a b : String) :
    strLt a b = true ∨ a = b ∨ strLt b a = true := by
  rcases charsLt_trichotomy a.data b.data with h | h | h
  · exact Or.inl h
  · refine Or.inr (Or.inl ?_)
    cases a
    cases b
    exact congrArg String.mk h
  · exact Or.inr (Or.inr h)

theorem strLt_lt_of_ge {p q r : String} (hqp : strLt q p = false)
    (hqr : strLt q r = true) : strLt p r = true := by
  rcases strLt_cases p q with h | h | h
  · exact strLt_trans h hqr
  · rw [h]
    exact hqr
  · rw [h] at hqp
    exact Bool.noConfusion hqp

theorem strLt_ge_trans {x q p : String} (hxq : strLt x q = false)
    (hqp : strLt q p = false) : strLt x p = false := by
  cases hv : strLt x p with
  | false => rfl
  | true =>
    exfalso
    rcases strLt_cases p q with h | h | h
    · have h2 := strLt_trans hv h
      rw [hxq] at h2
      exact Bool.noConfusion h2
    · rw [h] at hv
      rw [hv] at hxq
      exact Bool.noConfusion hxq
    · rw [h] at hqp
      exact Bool.noConfusion hqp

theorem foldMR_cons (mr : Option (String × String)) (p : String × String)
    (ps : List (String × String)) :
    foldMR mr (p :: ps) = foldMR (mrStep mr p.1 p.2) ps := rfl

theorem transformGo_fst (fmt : String → Option String) :
    ∀ (raw : List RawChat) (mr : Option (String × String)) (acc : List CleanedChat),
      (transformGo fmt raw mr acc).1 = (foldMR mr (validPairs raw)).map (·.1) := by
  intro raw
  induction raw with
  | nil =>
    intro mr acc
    rfl
  | cons r rest ih =>
    intro mr acc
    obtain ⟨nameF, uuidF, crF, upF⟩ := r
    cases nameF <;> cases uuidF <;> cases crF <;> cases upF <;> exact ih _ _

theorem maxIn_cons (a : String × String) (L : List (String × String))
    (p : String × String) :
    maxIn (a :: L) p = (!(strLt p.2 a.2) && maxIn L p) := by
  simp [maxIn, List.all_cons]

theorem maxIn_eq_false_of_lt {L : List (String × String)} {x y : String × String}
    (hy : y ∈ L) (h : strLt x.2 y.2 = true) : maxIn L x = false := by
  cases hv : maxIn L x with
  | false => rfl
  | true =>
    exfalso
    simp only [maxIn] at hv
    have h2 := List.all_eq_true.mp hv y hy
    rw [h] at h2
    exact Bool.noConfusion h2

theorem exists_gt_of_maxIn_false {L : List (String × String)} {x : String × String}
    (h : maxIn L x = false) : ∃ y ∈ L, strLt x.2 y.2 = true := by
  by_contra hc
  push_neg at hc
  have hall : maxIn L x = true := by
    simp only [maxIn]
    refine List.all_eq_true.mpr fun y hy => ?_
    have hne := hc y hy
    cases hv : strLt x.2 y.2 with
    | false => rfl
    | true => exact absurd hv hne
  rw [hall] at h
  exact Bool.noConfusion h

theorem firstMax_cons_of_lt {q r : String × String} {ps : List (String × String)}
    (h : strLt q.2 r.2 = true) : firstMax (q :: r :: ps) = firstMax (r :: ps) := by
  unfold firstMax
  have hq : maxIn (q :: r :: ps) q = false :=
    maxIn_eq_false_of_lt (y := r) (by simp) h
  rw [List.find?_cons_of_neg _ (by simp [hq])]
  congr 1
  funext x
  rw [maxIn_cons]
  cases hx : maxIn (r :: ps) x with
  | false => simp
  | true =>
    have hxr : strLt x.2 r.2 = false := by
      simp only [maxIn] at hx
      have h2 := List.all_eq_true.mp hx r (by simp)
      cases hv : strLt x.2 r.2 with
      | false => rfl
      | true =>
        rw [hv] at h2
        exact Bool.noConfusion h2
    have hxq : strLt x.2 q.2 = false := by
      cases hv : strLt x.2 q.2 with
      | false => rfl
      | true =>
        have h2 := strLt_trans hv h
        rw [hxr] at h2
        exact Bool.noConfusion h2
    simp [hxq]

theorem firstMax_drop_le {q r : String × String} {ps : List (String × String)}
    (h : strLt q.2 r.2 = false) : firstMax (q :: r :: ps) = firstMax (q :: ps) := by
  unfold firstMax
  have hqq : maxIn (q :: r :: ps) q = maxIn (q :: ps) q := by
    rw [maxIn_cons, maxIn_cons, maxIn_cons, h]
    simp
  cases hqv : maxIn (q :: ps) q with
  | true =>
    rw [List.find?_cons_of_pos _ (by rw [hqq, hqv]), List.find?_cons_of_pos _ hqv]
  | false =>
    obtain ⟨y, hy, hqy⟩ := exists_gt_of_maxIn_false (L := q :: ps) (x := q) hqv
    have hry : strLt r.2 y.2 = true := strLt_lt_of_ge h hqy
    have hy' : y ∈ q :: r :: ps := by
      rcases List.mem_cons.mp hy with rfl | hy2
      · exact List.mem_cons_self _ _
      · exact List.mem_cons_of_mem _ (List.mem_cons_of_mem _ hy2)
    have hr : maxIn (q :: r :: ps) r = false := maxIn_eq_false_of_lt hy' hry
    rw [List.find?_cons_of_neg _ (by rw [hqq, hqv]; simp),
      List.find?_cons_of_neg _ (by rw [hr]; simp),
      List.find?_cons_of_neg _ (by rw [hqv]; simp)]
    congr 1
    funext x
    rw [maxIn_cons, maxIn_cons, maxIn_cons]
    cases hxq : strLt x.2 q.2 with
    | true => simp [hxq]
    | false =>
      have hxr : strLt x.2 r.2 = false := strLt_ge_trans hxq h
      simp [hxq, hxr]

theorem foldMR_some_eq :
    ∀ (ps : List (String × String)) (q : String × String),
      foldMR (some q) ps = firstMax (q :: ps) := by
  intro ps
  induction ps with
  | nil =>
    intro q
    unfold firstMax
    rw [List.find?_cons_of_pos _ (by simp [maxIn, strLt_irrefl])]
    rfl
  | cons p ps ih =>
    intro q
    obtain ⟨u, t⟩ := p
    rw [foldMR_cons]
    show foldMR (mrStep (some q) u t) ps = firstMax (q :: (u, t) :: ps)
    cases hlt : strLt q.2 t with
    | true =>
      have hstep : mrStep (some q) u t = some (u, t) := by
        obtain ⟨qa, qb⟩ := q
        simp only [mrStep]
        simp only at hlt
        rw [hlt]
        simp
      rw [hstep, ih]
      exact (firstMax_cons_of_lt (q := q) (r := (u, t)) hlt).symm
    | false =>
      have hstep : mrStep (some q) u t = some q := by
        obtain ⟨qa, qb⟩ := q
        simp only [mrStep]
        simp only at hlt
        rw [hlt]
        simp
      rw [hstep, ih]
      exact (firstMax_drop_le (q := q) (r := (u, t)) hlt).symm

theorem foldMR_eq_firstMax (ps : List (String × String)) :
    foldMR none ps = firstMax ps := by
  cases ps with
  | nil => rfl
  | cons p ps =>
    rw [foldMR_cons]
    have hstep : mrStep none p.1 p.2 = some p := by
      obtain ⟨u, t⟩ := p
      rfl
    rw [hstep, foldMR_some_eq]

/-- C1: the `most_recent_uuid` component returned by `transform_raw_chats`
is exactly the spec's value: the uuid of the record whose raw (unformatted)
`updated_at` string is maximal under string comparison, with an exact tie
resolved to the earlier record in input order, and `none` when no record in
the input has all required keys. -/
theorem transform_most_recent_uuid_spec (fmt : String → Option String)
    (raw : List RawChat) :
    (transform_raw_chats fmt raw).1 = spec_most_recent_uuid (validPairs raw) := by
  show (transformGo fmt raw none []).1 = _
  rw [transformGo_fst, foldMR_eq_firstMax]
  rfl

/-! ## C2: execute_curl_command result classification -/

theorem strContains_append_right (a b pat : String) (h : strContains b pat = true) :
    strContains (a ++ b) pat = true := by
  simp only [strContains, String.data_append]
  exact containsSub_append_right a.data b.data pat.data h

theorem isPrefixB_take (l : List Char) (n : Nat) : isPrefixB (l.take n) l = true := by
  rw [isPrefixB_iff]
  exact ⟨l.drop n, (List.take_append_drop n l).symm⟩

/-- C2 (amended): `execute_curl_command` returns success exactly when the
exit status is zero and stdout parses as JSON (and then carries the parsed
payload); on a non-zero exit status the diagnostic mentions an expired
session whenever stderr contains `"403"` or `"Forbidden"`, and mentions the
wrong-endpoint hint whenever stderr contains `"404"` but neither `"403"` nor
`"Forbidden"` (the source's `elif` gives the 403 hint priority); on a zero
exit status with non-JSON output the failure carries a raw-output field that
starts with a prefix of the raw output of at most 200 characters. -/
theorem execute_curl_command_spec {α : Type} (jp : String → Except String α)
    (res : SubprocResult) :
    ((execute_curl_command jp res).success = true ↔
      (res.returncode = 0 ∧ ∃ a, jp res.stdout = .ok a)) ∧
    (∀ a, res.returncode = 0 → jp res.stdout = .ok a →
      (execute_curl_command jp res).data = some a) ∧
    (res.returncode ≠ 0 →
      (strContains res.stderr "403" || strContains res.stderr "Forbidden") = true →
      ∃ msg, (execute_curl_command jp res).error = some msg ∧
        strContains msg "Your session may have expired" = true) ∧
    (res.returncode ≠ 0 → strContains res.stderr "404" = true →
      (strContains res.stderr "403" || strContains res.stderr "Forbidden") = false →
      ∃ msg, (execute_curl_command jp res).error = some msg ∧
        strContains msg "Check if the URL" = true) ∧
    (res.returncode = 0 → ∀ e, jp res.stdout = .error e →
      (execute_curl_command jp res).success = false ∧
      ∃ r, (execute_curl_command jp res).rawResponse = some r ∧
        (pyTake res.stdout 200).data.length ≤ 200 ∧
        isPrefixB (pyTake res.stdout 200).data res.stdout.data = true ∧
        isPrefixB (pyTake res.stdout 200).data r.data = true) := by
  refine ⟨?_, ?_, ?_, ?_, ?_⟩
  · constructor
    · intro hs
      by_cases h0 : res.returncode = 0
      · refine ⟨h0, ?_⟩
        cases hjp : jp res.stdout with
        | ok a => exact ⟨a, rfl⟩
        | error e => simp [execute_curl_command, h0, hjp] at hs
      · simp [execute_curl_command, h0] at hs
    · rintro ⟨h0, a, hjp⟩
      simp [execute_curl_command, h0, hjp]
  · intro a h0 hjp
    simp [execute_curl_command, h0, hjp]
  · intro h0 hsub
    simp only [execute_curl_command, if_pos h0, hsub, if_true]
    refine ⟨_, rfl, ?_⟩
    exact strContains_append_right _ _ _ (by decide)
  · intro h0 h404 hno
    simp only [execute_curl_command, if_pos h0, hno, Bool.false_eq_true, if_false,
      h404, if_true]
    refine ⟨_, rfl, ?_⟩
    exact strContains_append_right _ _ _ (by decide)
  · intro h0 e hjp
    refine ⟨by simp [execute_curl_command, h0, hjp], ?_⟩
    simp only [execute_curl_command, h0, hjp]
    refine ⟨_, rfl, ?_, isPrefixB_take _ _, ?_⟩
    · show (res.stdout.data.take 200).length ≤ 200
      rw [List.length_take]
      exact min_le_left _ _
    · by_cases hl : pyLen res.stdout > 200
      · simp only [hl, if_true]
        show isPrefixB (pyTake res.stdout 200).data
          (pyTake res.stdout 200 ++ "...").data = true
        rw [String.data_append]
        exact isPrefixB_append _ _
      · simp only [hl, if_false]
        exact isPrefixB_take _ _

/-- Witness for `execute_curl_command_spec`: exit code 1 with stderr
containing "403 Forbidden" yields a failure whose diagnostic mentions the
expired session. -/
theorem execute_curl_command_spec_witness :
    ∃ msg, (execute_curl_command (fun _ => Except.error "e" : String → Except String Unit)
        { returncode := 1, stdout := "", stderr := "HTTP 403 Forbidden" }).error = some msg ∧
      strContains msg "Your session may have expired" = true :=
  (execute_curl_command_spec (fun _ => Except.error "e")
      { returncode := 1, stdout := "", stderr := "HTTP 403 Forbidden" }).2.2.1
    (by decide) (by decide)

/-- Counterexample to C2 as stated: when stderr contains both "403" and
"404", the exit-code-1 diagnostic carries only the expired-session hint; no
wrong-endpoint hint ("API endpoint not found" / "Check if the URL") appears
even though stderr contains "404". -/
theorem execute_curl_command_404_hint_counterexample :
    strContains "HTTP 403 404" "404" = true ∧
    (execute_curl_command (fun _ => Except.error "e" : String → Except String Unit)
        { returncode := 1, stdout := "", stderr := "HTTP 403 404" }).error =
      some ("cURL failed with return code 1\n❌ Authentication failed (403 Forbidden)\nYour session may have expired. Please get a fresh cURL command.") ∧
    strContains "cURL failed with return code 1\n❌ Authentication failed (403 Forbidden)\nYour session may have expired. Please get a fresh cURL command."
      "Check if the URL" = false ∧
    strContains "cURL failed with return code 1\n❌ Authentication failed (403 Forbidden)\nYour session may have expired. Please get a fresh cURL command."
      "API endpoint not found" = false := by
  refine ⟨by decide, ?_, by decide, by decide⟩
  decide

/-! ## C7: archive bucketing invariants -/

theorem dictGet_dictSet_self (m : List (String × List ChatObj)) (b : String)
    (v : List ChatObj) : dictGet (dictSet m b v) b = some v := by
  induction m with
  | nil => simp [dictGet, dictSet]
  | cons kv rest ih =>
    obtain ⟨k, w⟩ := kv
    by_cases hk : k = b
    · subst hk
      simp [dictSet, dictGet]
    · simp [dictSet, dictGet, hk, ih]

theorem dictGet_dictSet_ne (m : List (String × List ChatObj)) (b b' : String)
    (v : List ChatObj) (h : b' ≠ b) :
    dictGet (dictSet m b v) b' = dictGet m b' := by
  induction m with
  | nil =>
    have hb : (b == b') = false := by
      simp only [beq_eq_false_iff_ne]
      exact fun hc => h hc.symm
    simp [dictGet, dictSet, hb]
  | cons kv rest ih =>
    obtain ⟨k, w⟩ := kv
    by_cases hk : k = b
    · subst hk
      have hkb : (k == b') = false := by
        simp only [beq_eq_false_iff_ne]
        exact fun hc => h hc.symm
      simp [dictSet, dictGet, hkb]
    · by_cases hk' : k = b'
      · subst hk'
        simp [dictSet, dictGet, hk]
      · simp [dictSet, dictGet, hk, hk', ih]

theorem isEmpty_append_singleton (l : List ChatObj) (x : ChatObj) :
    (l ++ [x]).isEmpty = false := by
  cases l <;> rfl

theorem string_append_cancel_right {a b s : String} (h : a ++ s = b ++ s) : a = b := by
  have hd : a.data ++ s.data = b.data ++ s.data := by
    have h2 := congrArg String.data h
    simpa [String.data_append] using h2
  have h3 := List.append_cancel_right hd
  cases a
  cases b
  exact congrArg String.mk h3

theorem assemble_inv (lookup : String → List MessageInfo) (cur_dt : String)
    (last_uuid : Option String) :
    ∀ (chats : List CleanedChat) (st : Option ChatObj × List (String × List ChatObj))
      (g : String → List ChatObj),
      (∀ b, dictGet st.2 b = if (g b).isEmpty then none else some (g b)) →
      (∀ e, st.1 = some e → ∃ b l, dictGet st.2 b = some l ∧ e ∈ l) →
      (∀ b,
        dictGet (chats.foldl (bucketStep lookup cur_dt last_uuid) st).2 b =
          (if (g b ++ (chats.filter fun x => x.bucket == b).map
                (mkChatObj lookup cur_dt)).isEmpty
           then none
           else some (g b ++ (chats.filter fun x => x.bucket == b).map
                (mkChatObj lookup cur_dt)))) ∧
      (∀ e, (chats.foldl (bucketStep lookup cur_dt last_uuid) st).1 = some e →
        ∃ b l, dictGet (chats.foldl (bucketStep lookup cur_dt last_uuid) st).2 b
          = some l ∧ e ∈ l) := by
  intro chats
  induction chats with
  | nil =>
    intro st g hg hlast
    constructor
    · intro b
      simpa using hg b
    · simpa using hlast
  | cons c cs ih =>
    intro st g hg hlast
    have hex : (dictGet st.2 c.bucket).getD [] = g c.bucket := by
      rw [hg c.bucket]
      cases hgb : g c.bucket with
      | nil => simp [hgb]
      | cons x xs => simp [hgb]
    have hstep2 : (bucketStep lookup cur_dt last_uuid st c).2 =
        dictSet st.2 c.bucket (g c.bucket ++ [mkChatObj lookup cur_dt c]) := by
      simp only [bucketStep]
      rw [hex]
      cases hgb : g c.bucket with
      | nil => simp
      | cons x xs => simp
    have hstep1 : (bucketStep lookup cur_dt last_uuid st c).1 =
        (if last_uuid == some (mkChatObj lookup cur_dt c).uuid
         then some (mkChatObj lookup cur_dt c) else st.1) := rfl
    have hg1 : ∀ b, dictGet (bucketStep lookup cur_dt last_uuid st c).2 b =
        if ((if c.bucket == b then g b ++ [mkChatObj lookup cur_dt c] else g b)).isEmpty
        then none
        else some ((if c.bucket == b then g b ++ [mkChatObj lookup cur_dt c] else g b)) := by
      intro b
      rw [hstep2]
      by_cases hb : c.bucket = b
      · subst hb
        rw [dictGet_dictSet_self]
        simp [isEmpty_append_singleton]
      · have hbb : (c.bucket == b) = false := by
          simp only [beq_eq_false_iff_ne]
          exact hb
        rw [dictGet_dictSet_ne _ _ _ _ (fun hc => hb hc.symm), hbb]
        simpa using hg b
    have hl1 : ∀ e, (bucketStep lookup cur_dt last_uuid st c).1 = some e →
        ∃ b l, dictGet (bucketStep lookup cur_dt last_uuid st c).2 b = some l ∧ e ∈ l := by
      intro e he
      rw [hstep1] at he
      by_cases hu : last_uuid == some (mkChatObj lookup cur_dt c).uuid
      · rw [if_pos hu] at he
        cases he
        refine ⟨c.bucket, g c.bucket ++ [mkChatObj lookup cur_dt c], ?_, by simp⟩
        rw [hstep2, dictGet_dictSet_self]
      · rw [if_neg hu] at he
        obtain ⟨b, l, hbl, hel⟩ := hlast e he
        by_cases hb : c.bucket = b
        · subst hb
          refine ⟨c.bucket, g c.bucket ++ [mkChatObj lookup cur_dt c], ?_, ?_⟩
          · rw [hstep2, dictGet_dictSet_self]
          · have hgb := hg c.bucket
            rw [hbl] at hgb
            cases hge : (g c.bucket).isEmpty with
            | true =>
              rw [hge, if_pos rfl] at hgb
              exact Option.noConfusion hgb
            | false =>
              rw [hge] at hgb
              simp only [Bool.false_eq_true, if_false] at hgb
              cases hgb
              exact List.mem_append_left _ hel
        · refine ⟨b, l, ?_, hel⟩
          rw [hstep2, dictGet_dictSet_ne _ _ _ _ (fun hc => hb hc.symm)]
          exact hbl
    obtain ⟨ihA, ihB⟩ := ih (bucketStep lookup cur_dt last_uuid st c)
      (fun b => if c.bucket == b then g b ++ [mkChatObj lookup cur_dt c] else g b) hg1 hl1
    have hlist : ∀ b,
        (if c.bucket == b then g b ++ [mkChatObj lookup cur_dt c] else g b) ++
          (cs.filter fun x => x.bucket == b).map (mkChatObj lookup cur_dt) =
        g b ++ ((c :: cs).filter fun x => x.bucket == b).map (mkChatObj lookup cur_dt) := by
      intro b
      rw [List.filter_cons]
      by_cases hb : c.bucket == b
      · simp [hb, List.append_assoc]
      · simp only [Bool.not_eq_true] at hb
        simp [hb]
    constructor
    · intro b
      have := ihA b
      rw [hlist b] at this
      exact this
    · intro e he
      exact ihB e he

/-- C7: in the assembled archive, (a) any bucket list is exactly the entries
built from the cleaned conversations carrying that bucket string, in input
order; (b) every cleaned conversation's entry appears in the bucket keyed by
its own bucket string; (c) an entry never appears in two buckets with
different keys; (d) the `last_convo` entry, when present, is (structurally)
the same entry appearing in some bucket list. -/
theorem archive_assembly_invariants (lookup : String → List MessageInfo)
    (cur_dt : String) (last_uuid : Option String) (chats : List CleanedChat) :
    (∀ b l, dictGet (assemble_conversations lookup cur_dt last_uuid chats).2 b = some l →
      l = (chats.filter fun x => x.bucket == b).map (mkChatObj lookup cur_dt) ∧ l ≠ []) ∧
    (∀ c ∈ chats, ∃ l,
      dictGet (assemble_conversations lookup cur_dt last_uuid chats).2 c.bucket = some l ∧
        mkChatObj lookup cur_dt c ∈ l) ∧
    (∀ b₁ b₂ l₁ l₂ e,
      dictGet (assemble_conversations lookup cur_dt last_uuid chats).2 b₁ = some l₁ →
      dictGet (assemble_conversations lookup cur_dt last_uuid chats).2 b₂ = some l₂ →
      e ∈ l₁ → e ∈ l₂ → b₁ = b₂) ∧
    (∀ e, (assemble_conversations lookup cur_dt last_uuid chats).1 = some e →
      ∃ b l, dictGet (assemble_conversations lookup cur_dt last_uuid chats).2 b = some l ∧
        e ∈ l) := by
  obtain ⟨hA, hB⟩ := assemble_inv lookup cur_dt last_uuid chats (none, []) (fun _ => [])
    (fun b => rfl) (fun e he => Option.noConfusion he)
  have hA' : ∀ b,
      dictGet (assemble_conversations lookup cur_dt last_uuid chats).2 b =
        if ((chats.filter fun x => x.bucket == b).map (mkChatObj lookup cur_dt)).isEmpty
        then none
        else some ((chats.filter fun x => x.bucket == b).map (mkChatObj lookup cur_dt)) := by
    intro b
    have := hA b
    simpa using this
  have hGet : ∀ b l,
      dictGet (assemble_conversations lookup cur_dt last_uuid chats).2 b = some l →
      l = (chats.filter fun x => x.bucket == b).map (mkChatObj lookup cur_dt) ∧ l ≠ [] := by
    intro b l h
    rw [hA' b] at h
    cases hfe : ((chats.filter fun x => x.bucket == b).map (mkChatObj lookup cur_dt)).isEmpty with
    | true =>
      rw [hfe, if_pos rfl] at h
      exact Option.noConfusion h
    | false =>
      rw [hfe] at h
      simp only [Bool.false_eq_true, if_false] at h
      cases h
      refine ⟨rfl, ?_⟩
      intro hnil
      rw [hnil] at hfe
      exact Bool.noConfusion hfe
  refine ⟨hGet, ?_, ?_, hB⟩
  · intro c hc
    have hmem : c ∈ chats.filter fun x => x.bucket == c.bucket :=
      List.mem_filter.mpr ⟨hc, by simp⟩
    have hobj : mkChatObj lookup cur_dt c ∈
        (chats.filter fun x => x.bucket == c.bucket).map (mkChatObj lookup cur_dt) :=
      List.mem_map_of_mem _ hmem
    have hne : ((chats.filter fun x => x.bucket == c.bucket).map
        (mkChatObj lookup cur_dt)).isEmpty = false := by
      cases hfl : (chats.filter fun x => x.bucket == c.bucket).map (mkChatObj lookup cur_dt) with
      | nil =>
        rw [hfl] at hobj
        cases hobj
      | cons y ys => rfl
    refine ⟨_, ?_, hobj⟩
    rw [hA' c.bucket, hne]
    simp
  · intro b₁ b₂ l₁ l₂ e h1 h2 he1 he2
    obtain ⟨hl1, -⟩ := hGet b₁ l₁ h1
    obtain ⟨hl2, -⟩ := hGet b₂ l₂ h2
    rw [hl1] at he1
    rw [hl2] at he2
    obtain ⟨c₁, hc₁, hec₁⟩ := List.mem_map.mp he1
    obtain ⟨c₂, hc₂, hec₂⟩ := List.mem_map.mp he2
    have hb₁ : c₁.bucket = b₁ := by
      have := (List.mem_filter.mp hc₁).2
      simpa using this
    have hb₂ : c₂.bucket = b₂ := by
      have := (List.mem_filter.mp hc₂).2
      simpa using this
    have hmk : mkChatObj lookup cur_dt c₁ = mkChatObj lookup cur_dt c₂ :=
      hec₁.trans hec₂.symm
    have hname : c₁.name = c₂.name := congrArg ChatObj.name hmk
    have hfn : c₁.bucket ++ "_" ++ c₁.name = c₂.bucket ++ "_" ++ c₂.name :=
      congrArg ChatObj.file_name hmk
    rw [hname] at hfn
    have h4 := string_append_cancel_right hfn
    have h5 := string_append_cancel_right h4
    rw [← hb₁, ← hb₂, h5]

/-- Witness for `archive_assembly_invariants`: one concrete conversation is
found in the bucket keyed by its own bucket string. -/
theorem archive_assembly_invariants_witness :
    ∃ l, dictGet (assemble_conversations (fun _ => []) "now" (some "1")
        [{ name := "A", uuid := "1", created_at := "c", updated_at := "u",
           bucket := "b" }]).2
        ({ name := "A", uuid := "1", created_at := "c", updated_at := "u",
           bucket := "b" } : CleanedChat).bucket = some l ∧
      mkChatObj (fun _ => []) "now"
        { name := "A", uuid := "1", created_at := "c", updated_at := "u",
          bucket := "b" } ∈ l :=
  (archive_assembly_invariants (fun _ => []) "now" (some "1")
      [{ name := "A", uuid := "1", created_at := "c", updated_at := "u",
         bucket := "b" }]).2.1
    { name := "A", uuid := "1", created_at := "c", updated_at := "u", bucket := "b" }
    (by simp)

/-! ## Lemmas about str.replace, and C6 -/

theorem mem_of_isPrefixB {p l : List Char} (h : isPrefixB p l = true) :
    ∀ x ∈ p, x ∈ l := by
  obtain ⟨t, rfl⟩ := (isPrefixB_iff p l).mp h
  intro x hx
  exact List.mem_append_left t hx

theorem replFuel_id {pat rep : List Char} {c₀ : Char} (hc : c₀ ∈ pat) :
    ∀ (f : Nat) (l : List Char), c₀ ∉ l → replFuel pat rep f l = l := by
  intro f
  induction f with
  | zero =>
    intro l h
    rfl
  | succ f ih =>
    intro l h
    cases l with
    | nil => rfl
    | cons c rest =>
      have hcond : (!pat.isEmpty && isPrefixB pat (c :: rest)) = false := by
        cases hp : isPrefixB pat (c :: rest) with
        | false => simp [hp]
        | true => exact absurd (mem_of_isPrefixB hp c₀ hc) h
      simp only [replFuel, hcond, Bool.false_eq_true, if_false]
      rw [ih rest (fun hm => h (List.mem_cons_of_mem c hm))]

theorem replChars_id {pat rep : List Char} {c₀ : Char} (hc : c₀ ∈ pat)
    (l : List Char) (h : c₀ ∉ l) : replChars pat rep l = l :=
  replFuel_id hc _ l h

theorem pyReplace_id (s pat rep : String) (c₀ : Char)
    (hc : c₀ ∈ pat.data) (h : c₀ ∉ s.data) : pyReplace s pat rep = s := by
  unfold pyReplace
  rw [replChars_id hc s.data h]

theorem replFuel_fuel_irrel (pat rep : List Char) :
    ∀ (f₁ f₂ : Nat) (l : List Char), l.length ≤ f₁ → l.length ≤ f₂ →
      replFuel pat rep f₁ l = replFuel pat rep f₂ l := by
  intro f₁
  induction f₁ with
  | zero =>
    intro f₂ l h1 h2
    have hl : l = [] := List.eq_nil_of_length_eq_zero (Nat.le_zero.mp h1)
    subst hl
    cases f₂ <;> rfl
  | succ f ih =>
    intro f₂ l h1 h2
    cases l with
    | nil => cases f₂ <;> rfl
    | cons c rest =>
      cases f₂ with
      | zero =>
        exact absurd h2 (by simp)
      | succ f₂' =>
        simp only [replFuel]
        cases hcond : (!pat.isEmpty && isPrefixB pat (c :: rest)) with
        | true =>
          simp only [hcond, if_true]
          congr 1
          have hpl : 1 ≤ pat.length := by
            have hcopy := hcond
            rw [Bool.and_eq_true] at hcopy
            obtain ⟨hne, -⟩ := hcopy
            cases pat with
            | nil => simp at hne
            | cons _ _ => simp
          apply ih
          · rw [List.length_drop, List.length_cons]
            simp only [List.length_cons] at h1
            omega
          · rw [List.length_drop, List.length_cons]
            simp only [List.length_cons] at h2
            omega
        | false =>
          simp only [hcond, Bool.false_eq_true, if_false]
          congr 1
          apply ih
          · simp only [List.length_cons] at h1
            omega
          · simp only [List.length_cons] at h2
            omega

theorem replChars_join (rest : List Char) :
    ∀ (l₁ : List Char), '\n' ∉ l₁ →
      replChars " \\\n".data " ".data (l₁ ++ " \\\n".data ++ rest) =
        l₁ ++ ' ' :: replChars " \\\n".data " ".data rest := by
  intro l₁
  induction l₁ with
  | nil =>
    intro h
    have hform : ([] : List Char) ++ " \\\n".data ++ rest = ' ' :: '\\' :: '\n' :: rest := rfl
    rw [hform]
    show replFuel " \\\n".data " ".data (' ' :: '\\' :: '\n' :: rest).length
        (' ' :: '\\' :: '\n' :: rest) = [] ++ ' ' :: replChars " \\\n".data " ".data rest
    have hlen : (' ' :: '\\' :: '\n' :: rest).length = rest.length + 2 + 1 := by
      simp
    rw [hlen]
    have hcond : (!(" \\\n".data).isEmpty &&
        isPrefixB " \\\n".data (' ' :: '\\' :: '\n' :: rest)) = true := by
      have hp : isPrefixB " \\\n".data (' ' :: '\\' :: '\n' :: rest) = true := by
        have he : (' ' : Char) :: '\\' :: '\n' :: rest = " \\\n".data ++ rest := rfl
        rw [he]
        exact isPrefixB_append _ _
      rw [hp]
      rfl
    simp only [replFuel, hcond, if_true]
    have hdrop : (' ' :: '\\' :: '\n' :: rest).drop (" \\\n".data).length = rest := rfl
    rw [hdrop]
    have hfuel : replFuel " \\\n".data " ".data (rest.length + 2) rest =
        replFuel " \\\n".data " ".data rest.length rest :=
      replFuel_fuel_irrel _ _ _ _ _ (by omega) (le_refl _)
    rw [hfuel]
    rfl
  | cons c l₁' ih =>
    intro h
    have h' : '\n' ∉ l₁' := fun hm => h (List.mem_cons_of_mem _ hm)
    have hform : (c :: l₁') ++ " \\\n".data ++ rest =
        c :: (l₁' ++ " \\\n".data ++ rest) := by simp
    rw [hform]
    show replFuel " \\\n".data " ".data (c :: (l₁' ++ " \\\n".data ++ rest)).length
        (c :: (l₁' ++ " \\\n".data ++ rest)) = _
    have hlen : (c :: (l₁' ++ " \\\n".data ++ rest)).length =
        (l₁' ++ " \\\n".data ++ rest).length + 1 := by simp
    rw [hlen]
    have hpf : isPrefixB " \\\n".data (c :: (l₁' ++ " \\\n".data ++ rest)) = false := by
      cases l₁' with
      | nil =>
        have : ([] : List Char) ++ " \\\n".data ++ rest = ' ' :: '\\' :: '\n' :: rest := rfl
        rw [this]
        show ((' ' == c) && (('\\' == ' ') && (('\n' == '\\') &&
          isPrefixB [] ('\n' :: rest)))) = false
        simp
      | cons b l₁'' =>
        cases l₁'' with
        | nil =>
          have : ([b] : List Char) ++ " \\\n".data ++ rest =
              b :: ' ' :: '\\' :: '\n' :: rest := rfl
          rw [this]
          show ((' ' == c) && (('\\' == b) && (('\n' == ' ') &&
            isPrefixB [] ('\\' :: '\n' :: rest)))) = false
          simp
        | cons d lthree =>
          have : (b :: d :: lthree) ++ " \\\n".data ++ rest =
              b :: d :: (lthree ++ " \\\n".data ++ rest) := by simp
          rw [this]
          show ((' ' == c) && (('\\' == b) && (('\n' == d) &&
            isPrefixB [] (lthree ++ " \\\n".data ++ rest)))) = false
          have hd : ('\n' == d) = false := by
            simp only [beq_eq_false_iff_ne]
            intro hdd
            exact h (by rw [hdd]; simp)
          simp [hd]
    have hcond : (!(" \\\n".data).isEmpty &&
        isPrefixB " \\\n".data (c :: (l₁' ++ " \\\n".data ++ rest))) = false := by
      rw [hpf]
      simp
    simp only [replFuel, hcond, Bool.false_eq_true, if_false]
    rw [show replFuel " \\\n".data " ".data (l₁' ++ " \\\n".data ++ rest).length
        (l₁' ++ " \\\n".data ++ rest) =
        replChars " \\\n".data " ".data (l₁' ++ " \\\n".data ++ rest) from rfl]
    rw [ih h']
    simp

theorem no_nl_joinWith (ls : List String) (h : ∀ l ∈ ls, ¬ '\n' ∈ l.data) :
    '\n' ∉ (joinWith " " ls).data := by
  induction ls with
  | nil => simp [joinWith]
  | cons l ls' ih =>
    cases ls' with
    | nil => exact h l (by simp)
    | cons l₂ ls'' =>
      intro hm
      have hd : (joinWith " " (l :: l₂ :: ls'')).data =
          l.data ++ " ".data ++ (joinWith " " (l₂ :: ls'')).data := by
        show ((l ++ " ") ++ joinWith " " (l₂ :: ls'')).data = _
        rw [String.data_append, String.data_append]
      rw [hd] at hm
      rcases List.mem_append.mp hm with hm1 | hm2
      · rcases List.mem_append.mp hm1 with hma | hmb
        · exact h l (by simp) hma
        · simp at hmb
      · exact ih (fun x hx => h x (List.mem_cons_of_mem _ hx)) hm2

theorem joinWith_cont_eq (ls : List String) (h : ∀ l ∈ ls, ¬ '\n' ∈ l.data) :
    pyReplace (joinWith " \\\n" ls) " \\\n" " " = joinWith " " ls := by
  induction ls with
  | nil => rfl
  | cons l ls' ih =>
    cases ls' with
    | nil => exact pyReplace_id l " \\\n" " " '\n' (by decide) (h l (by simp))
    | cons l₂ ls'' =>
      have hl : ¬ '\n' ∈ l.data := h l (by simp)
      have hrest : ∀ x ∈ l₂ :: ls'', ¬ '\n' ∈ x.data :=
        fun x hx => h x (List.mem_cons_of_mem _ hx)
      show (⟨replChars " \\\n".data " ".data
        (joinWith " \\\n" (l :: l₂ :: ls'')).data⟩ : String) = joinWith " " (l :: l₂ :: ls'')
      have hdata : (joinWith " \\\n" (l :: l₂ :: ls'')).data =
          l.data ++ " \\\n".data ++ (joinWith " \\\n" (l₂ :: ls'')).data := by
        show ((l ++ " \\\n") ++ joinWith " \\\n" (l₂ :: ls'')).data = _
        rw [String.data_append, String.data_append]
      rw [hdata, replChars_join _ _ hl]
      rw [show replChars " \\\n".data " ".data (joinWith " \\\n" (l₂ :: ls'')).data
          = (joinWith " " (l₂ :: ls'')).data from congrArg String.data (ih hrest)]
      have hbig : (joinWith " " (l :: l₂ :: ls'')).data =
          l.data ++ ' ' :: (joinWith " " (l₂ :: ls'')).data := by
        show ((l ++ " ") ++ joinWith " " (l₂ :: ls'')).data = _
        rw [String.data_append, String.data_append]
        simp
      exact congrArg String.mk hbig.symm

/-- C6: parsing a captured command written in multi-line form with
trailing-backslash line continuations yields exactly the same result as
parsing the equivalent single-line form, for every list of continuation
lines (none of which spans a physical newline itself). -/
theorem parse_multiline_eq_singleline (ls : List String)
    (h : ∀ l ∈ ls, ¬ '\n' ∈ l.data) :
    parse_curl_command (joinWith " \\\n" ls) = parse_curl_command (joinWith " " ls) := by
  unfold parse_curl_command preprocessCurl
  rw [joinWith_cont_eq ls h,
    pyReplace_id (joinWith " " ls) " \\\n" " " '\n' (by decide) (no_nl_joinWith ls h)]

/-- Witness for `parse_multiline_eq_singleline` at a concrete two-line
command. -/
theorem parse_multiline_eq_singleline_witness :
    parse_curl_command (joinWith " \\\n" ["curl 'https://claude.ai/x'", "-H 'a: b'"]) =
      parse_curl_command (joinWith " " ["curl 'https://claude.ai/x'", "-H 'a: b'"]) :=
  parse_multiline_eq_singleline ["curl 'https://claude.ai/x'", "-H 'a: b'"] (by decide)

/-! ## C5: when parse_curl_command fails -/

theorem shlexCore_no_special_ok :
    ∀ (l : List Char), (∀ c ∈ l, c ≠ '\'' ∧ c ≠ '"' ∧ c ≠ '\\') →
      ∀ (st : SState) (started : Bool) (tok : List Char) (acc : List (List Char)),
        st = .out ∨ st = .word →
        ∃ r, shlexCore st started tok acc l = .ok r := by
  intro l
  induction l with
  | nil =>
    intro h st started tok acc hst
    rcases hst with rfl | rfl
    · exact ⟨acc, rfl⟩
    · exact ⟨emitTok tok started acc, rfl⟩
  | cons c rest ih =>
    intro h st started tok acc hst
    obtain ⟨hq, hdq, hbs⟩ := h c (by simp)
    have hrest : ∀ x ∈ rest, x ≠ '\'' ∧ x ≠ '"' ∧ x ≠ '\\' :=
      fun x hx => h x (List.mem_cons_of_mem _ hx)
    have hq' : (c == '\'') = false := by
      simp only [beq_eq_false_iff_ne]
      exact hq
    have hdq' : (c == '"') = false := by
      simp only [beq_eq_false_iff_ne]
      exact hdq
    have hbs' : (c == '\\') = false := by
      simp only [beq_eq_false_iff_ne]
      exact hbs
    rcases hst with rfl | rfl
    · cases hws : isShWs c with
      | true =>
        simp only [shlexCore, hws, if_true]
        exact ih hrest .out false [] acc (Or.inl rfl)
      | false =>
        simp only [shlexCore, hws, hq', hdq', hbs', Bool.false_eq_true, if_false]
        exact ih hrest .word started (tok ++ [c]) acc (Or.inr rfl)
    · cases hws : isShWs c with
      | true =>
        simp only [shlexCore, hws, if_true]
        exact ih hrest .out false [] (emitTok tok started acc) (Or.inl rfl)
      | false =>
        simp only [shlexCore, hws, hq', hdq', hbs', Bool.false_eq_true, if_false]
        exact ih hrest .word started (tok ++ [c]) acc (Or.inr rfl)

/-- C5 (amended): `parse_curl_command` returns the failure value exactly when
`shlex` tokenization of the preprocessed text raises (unbalanced quote or
dangling escape); an input that is empty after trimming whitespace does NOT
fail — it tokenizes to no arguments and yields a result. -/
theorem parse_curl_command_failure_spec :
    (∀ s, parse_curl_command s = none ↔
      ∃ e, shlexSplit (preprocessCurl s) = .error e) ∧
    (∀ s, (∀ c ∈ s.data, isPySpace c = true) → parse_curl_command s ≠ none) := by
  constructor
  · intro s
    unfold parse_curl_command
    cases hsp : shlexSplit (preprocessCurl s) with
    | ok args => simp [hsp]
    | error e => simp [hsp]
  · intro s hs hnone
    have hbs : '\\' ∉ s.data := by
      intro hm
      exact absurd (hs '\\' hm) (by decide)
    have h1 : pyReplace s " \\\n" " " = s :=
      pyReplace_id s " \\\n" " " '\\' (by decide) hbs
    have h2 : pyReplace s "\\\n" " " = s :=
      pyReplace_id s "\\\n" " " '\\' (by decide) hbs
    have h3 : pyStartsWith s "curl " = false := by
      unfold pyStartsWith
      cases hd : s.data with
      | nil => rfl
      | cons c rest =>
        have hc := hs c (by rw [hd]; simp)
        have hcc : ('c' == c) = false := by
          simp only [beq_eq_false_iff_ne]
          intro hcc
          rw [← hcc] at hc
          exact absurd hc (by decide)
        simp [isPrefixB, hcc]
    have hpre : preprocessCurl s = s := by
      unfold preprocessCurl
      dsimp only
      rw [h1, h2, h3]
      simp
    have hspec : ∀ c ∈ s.data, c ≠ '\'' ∧ c ≠ '"' ∧ c ≠ '\\' := by
      intro c hm
      have hc := hs c hm
      refine ⟨?_, ?_, ?_⟩ <;>
        (intro hcc; rw [hcc] at hc; exact absurd hc (by decide))
    obtain ⟨r, hr⟩ := shlexCore_no_special_ok s.data hspec .out false [] [] (Or.inl rfl)
    unfold parse_curl_command at hnone
    rw [hpre] at hnone
    unfold shlexSplit at hnone
    rw [hr] at hnone
    simp [Except.map] at hnone

/-- Counterexample to C5 as stated: the empty input is empty after trimming,
yet `parse_curl_command` succeeds (returning the lone invocation token)
rather than failing. -/
theorem parse_curl_command_empty_counterexample :
    pyStrip "" = "" ∧ parse_curl_command "" = some ["curl"] := ⟨rfl, rfl⟩

/-- Witness for `parse_curl_command_failure_spec`: an unbalanced quote makes
the parse fail. -/
theorem parse_curl_command_failure_spec_witness :
    parse_curl_command "curl 'x" = none :=
  (parse_curl_command_failure_spec.1 "curl 'x").mpr ⟨.noClosingQuote, rfl⟩

/-! ## C3: validation and organization-id extraction -/

theorem takeWhile_append_of_all (p : Char → Bool) (r : List Char) (x : Char)
    (post : List Char) (hr : ∀ c ∈ r, p c = true) (hx : p x = false) :
    (r ++ x :: post).takeWhile p = r ∧ (r ++ x :: post).dropWhile p = x :: post := by
  induction r with
  | nil => simp [List.takeWhile_cons, List.dropWhile_cons, hx]
  | cons a r' ih =>
    have ha : p a = true := hr a (by simp)
    obtain ⟨ih1, ih2⟩ := ih fun c hc => hr c (List.mem_cons_of_mem _ hc)
    constructor
    · simp [List.takeWhile_cons, ha, ih1]
    · simp [List.dropWhile_cons, ha, ih2]

theorem matchOrgAt_sound {l r : List Char} (h : matchOrgAt l = some r) :
    ∃ post, l = orgPat ++ r ++ '/' :: post ∧ r ≠ [] ∧ ∀ c ∈ r, isOrgChar c = true := by
  unfold matchOrgAt at h
  cases hp : isPrefixB orgPat l with
  | false =>
    rw [hp] at h
    simp at h
  | true =>
    rw [hp, if_pos rfl] at h
    dsimp only at h
    obtain ⟨t, rfl⟩ := (isPrefixB_iff _ _).mp hp
    have hdrop : (orgPat ++ t).drop 15 = t := by
      have hlen : orgPat.length = 15 := rfl
      rw [← hlen]
      exact List.drop_left _ _
    rw [hdrop] at h
    cases hrun : (t.takeWhile isOrgChar).isEmpty with
    | true =>
      rw [hrun, if_pos rfl] at h
      exact Option.noConfusion h
    | false =>
      rw [hrun] at h
      simp only [Bool.false_eq_true, if_false] at h
      cases hdw : t.dropWhile isOrgChar with
      | nil =>
        rw [hdw] at h
        exact Option.noConfusion h
      | cons d rest' =>
        rw [hdw] at h
        dsimp only at h
        cases hd : (d == '/') with
        | false =>
          rw [hd] at h
          simp at h
        | true =>
          rw [hd, if_pos rfl] at h
          cases h
          have hdeq : d = '/' := by
            have := hd
            simp only [beq_iff_eq] at this
            exact this
          subst hdeq
          refine ⟨rest', ?_, ?_, ?_⟩
          · have ht : t.takeWhile isOrgChar ++ t.dropWhile isOrgChar = t :=
              List.takeWhile_append_dropWhile _ _
            rw [hdw] at ht
            exact congrArg (fun x => orgPat ++ x) ht.symm
          · intro hnil
            rw [hnil] at hrun
            exact Bool.noConfusion hrun
          · intro c hc
            exact List.mem_takeWhile_imp hc

theorem matchOrgAt_complete (r post : List Char) (hne : r ≠ [])
    (hall : ∀ c ∈ r, isOrgChar c = true) :
    matchOrgAt (orgPat ++ r ++ '/' :: post) = some r := by
  unfold matchOrgAt
  have hp : isPrefixB orgPat (orgPat ++ r ++ '/' :: post) = true := isPrefixB_append _ _
  rw [hp, if_pos rfl]
  dsimp only
  have hdrop : (orgPat ++ r ++ '/' :: post).drop 15 = r ++ '/' :: post := by
    have hlen : orgPat.length = 15 := rfl
    rw [← hlen]
    exact List.drop_left _ _
  rw [hdrop]
  obtain ⟨htw, hdw⟩ := takeWhile_append_of_all isOrgChar r '/' post hall (by decide)
  rw [htw, hdw]
  have hre : r.isEmpty = false := by
    cases r with
    | nil => exact absurd rfl hne
    | cons _ _ => rfl
  rw [hre]
  simp

theorem findOrgId_sound : ∀ (l : List Char) (r : List Char), findOrgId l = some r →
    ∃ pre post, l = pre ++ orgPat ++ r ++ '/' :: post ∧ r ≠ [] ∧
      ∀ c ∈ r, isOrgChar c = true := by
  intro l
  induction l with
  | nil =>
    intro r h
    exact Option.noConfusion h
  | cons c rest ih =>
    intro r h
    unfold findOrgId at h
    cases hm : matchOrgAt (c :: rest) with
    | some r' =>
      rw [hm] at h
      cases h
      obtain ⟨post, hdec, hne, hall⟩ := matchOrgAt_sound hm
      exact ⟨[], post, by simpa using hdec, hne, hall⟩
    | none =>
      rw [hm] at h
      obtain ⟨pre, post, hdec, hne, hall⟩ := ih r h
      exact ⟨c :: pre, post, by rw [hdec]; simp, hne, hall⟩

theorem findOrgId_complete : ∀ (pre r post : List Char), r ≠ [] →
    (∀ c ∈ r, isOrgChar c = true) →
    findOrgId (pre ++ orgPat ++ r ++ '/' :: post) ≠ none := by
  intro pre
  induction pre with
  | nil =>
    intro r post hne hall h
    have hred : findOrgId ([] ++ orgPat ++ r ++ '/' :: post) =
        match matchOrgAt (orgPat ++ r ++ '/' :: post) with
        | some r' => some r'
        | none => findOrgId ("organizations/".data ++ (r ++ '/' :: post)) := rfl
    rw [hred, matchOrgAt_complete r post hne hall] at h
    exact Option.noConfusion h
  | cons a pre' ih =>
    intro r post hne hall h
    have hred : findOrgId ((a :: pre') ++ orgPat ++ r ++ '/' :: post) =
        match matchOrgAt ((a :: pre') ++ orgPat ++ r ++ '/' :: post) with
        | some r' => some r'
        | none => findOrgId (pre' ++ orgPat ++ r ++ '/' :: post) := rfl
    rw [hred] at h
    cases hm : matchOrgAt ((a :: pre') ++ orgPat ++ r ++ '/' :: post) with
    | some r' =>
      rw [hm] at h
      exact Option.noConfusion h
    | none =>
      rw [hm] at h
      exact ih r post hne hall h

/-- C3: `validate_curl_command` is Invalid exactly when the argument sequence
has fewer than 2 tokens, or the URL token lacks the `claude.ai` host
substring, or no `/organizations/<token>/` segment with a nonempty
hex/hyphen token occurs in the URL; otherwise it is Valid carrying the URL
and the extracted organization id.  The extracted id is sound (it really is
such a segment) and complete (if such a segment exists one is found); the
spec's concrete scenario parses and validates to org id `abc-123`. -/
theorem validate_curl_command_spec :
    (∀ url t, extract_org_id url = some t →
      t ≠ "" ∧ (∀ c ∈ t.data, isOrgChar c = true) ∧
      ∃ pre post, url.data = pre ++ "/organizations/".data ++ t.data ++ '/' :: post) ∧
    (∀ url, extract_org_id url = none →
      ¬ ∃ pre t post, url.data = pre ++ "/organizations/".data ++ t ++ '/' :: post ∧
        t ≠ [] ∧ ∀ c ∈ t, isOrgChar c = true) ∧
    (∀ args, (∃ e, validate_curl_command args = .invalid e) ↔
      (args.length < 2 ∨ strContains (extract_url args) "claude.ai" = false ∨
        extract_org_id (extract_url args) = none)) ∧
    (∀ args t, 2 ≤ args.length → strContains (extract_url args) "claude.ai" = true →
      extract_org_id (extract_url args) = some t →
      validate_curl_command args = .valid (extract_url args) t args.length) ∧
    (parse_curl_command
        "curl 'https://claude.ai/api/organizations/abc-123/chat_conversations?limit=100' -H 'x: y'" =
      some ["curl", "https://claude.ai/api/organizations/abc-123/chat_conversations?limit=100",
        "-H", "x: y"] ∧
      validate_curl_command
        ["curl", "https://claude.ai/api/organizations/abc-123/chat_conversations?limit=100",
          "-H", "x: y"] =
        .valid "https://claude.ai/api/organizations/abc-123/chat_conversations?limit=100"
          "abc-123" 4) := by
  refine ⟨?_, ?_, ?_, ?_, ?_, ?_⟩
  · intro url t h
    unfold extract_org_id at h
    rw [Option.map_eq_some'] at h
    obtain ⟨r, hr, rfl⟩ := h
    obtain ⟨pre, post, hdec, hne, hall⟩ := findOrgId_sound url.data r hr
    refine ⟨?_, hall, pre, post, hdec⟩
    intro hcon
    exact hne (congrArg String.data hcon)
  · intro url h
    unfold extract_org_id at h
    rw [Option.map_eq_none'] at h
    rintro ⟨pre, t, post, hdec, hne, hall⟩
    rw [hdec] at h
    exact findOrgId_complete pre t post hne hall h
  · intro args
    constructor
    · rintro ⟨e, he⟩
      unfold validate_curl_command at he
      by_cases h2 : args.length < 2
      · exact Or.inl h2
      · rw [if_neg h2] at he
        dsimp only at he
        cases hcc : strContains (extract_url args) "claude.ai" with
        | false => exact Or.inr (Or.inl rfl)
        | true =>
          rw [hcc] at he
          simp only [Bool.not_true, Bool.false_eq_true, if_false] at he
          cases ho : extract_org_id (extract_url args) with
          | none => exact Or.inr (Or.inr rfl)
          | some oid =>
            rw [ho] at he
            exact ValidationResult.noConfusion he
    · intro hdisj
      unfold validate_curl_command
      rcases hdisj with h2 | hcc | ho
      · rw [if_pos h2]
        exact ⟨_, rfl⟩
      · by_cases h2 : args.length < 2
        · rw [if_pos h2]
          exact ⟨_, rfl⟩
        · rw [if_neg h2]
          dsimp only
          rw [hcc]
          exact ⟨_, rfl⟩
      · by_cases h2 : args.length < 2
        · rw [if_pos h2]
          exact ⟨_, rfl⟩
        · rw [if_neg h2]
          dsimp only
          cases hcc : strContains (extract_url args) "claude.ai" with
          | false => exact ⟨_, rfl⟩
          | true =>
            rw [ho]
            exact ⟨_, rfl⟩
  · intro args t h2 hcc ho
    unfold validate_curl_command
    rw [if_neg (not_lt.mpr h2)]
    dsimp only
    rw [hcc]
    simp only [Bool.not_true, Bool.false_eq_true, if_false]
    rw [ho]
  · exact rfl
  · exact rfl

/-- Witness for `validate_curl_command_spec`: the empty argument list is
rejected. -/
theorem validate_curl_command_spec_witness :
    ∃ e, validate_curl_command [] = .invalid e :=
  (validate_curl_command_spec.2.2.1 []).mpr (Or.inl (by decide))

/-! ## C4: deriving the per-conversation message request -/

theorem shlexCore_sq_consume :
    ∀ (u : List Char), '\'' ∉ u →
      ∀ (started : Bool) (tok : List Char) (acc : List (List Char)) (l : List Char),
        shlexCore .sq started tok acc (u ++ '\'' :: l) =
          shlexCore .word started (tok ++ u) acc l := by
  intro u
  induction u with
  | nil =>
    intro h started tok acc l
    simp only [List.nil_append, shlexCore, beq_self_eq_true, if_true, List.append_nil]
  | cons c u' ih =>
    intro h started tok acc l
    have hc : (c == '\'') = false := by
      simp only [beq_eq_false_iff_ne]
      intro hc
      exact h (by rw [hc]; simp)
    show shlexCore .sq started tok acc (c :: (u' ++ '\'' :: l)) =
      shlexCore .word started (tok ++ c :: u') acc l
    simp only [shlexCore, hc, Bool.false_eq_true, if_false]
    rw [ih (fun hm => h (List.mem_cons_of_mem _ hm)) started (tok ++ [c]) acc l]
    simp

theorem shlexCore_quoted_head (u : List Char) (hq : '\'' ∉ u)
    (acc : List (List Char)) (l : List Char) :
    shlexCore .out false [] acc ('\'' :: (u ++ '\'' :: ' ' :: l)) =
      shlexCore .out false [] (acc ++ [u]) l := by
  have hstep : shlexCore .out false [] acc ('\'' :: (u ++ '\'' :: ' ' :: l)) =
      shlexCore .sq true [] acc (u ++ '\'' :: ' ' :: l) := by
    simp [shlexCore, isShWs]
  rw [hstep, shlexCore_sq_consume u hq true [] acc (' ' :: l)]
  simp [shlexCore, isShWs, emitTok]

theorem shlexCore_acc :
    ∀ (l : List Char) (st : SState) (started : Bool) (tok : List Char)
      (acc : List (List Char)),
      shlexCore st started tok acc l = (shlexCore st started tok [] l).map (acc ++ ·) := by
  intro l
  induction l with
  | nil =>
    intro st started tok acc
    cases st <;> simp [shlexCore, Except.map, emitTok]
  | cons c rest ih =>
    intro st started tok acc
    cases st with
    | out =>
      simp only [shlexCore]
      by_cases h1 : isShWs c = true
      · rw [if_pos h1, if_pos h1]
        exact ih .out false [] acc
      · rw [if_neg h1, if_neg h1]
        by_cases h2 : (c == '\'') = true
        · rw [if_pos h2, if_pos h2]
          exact ih .sq true tok acc
        · rw [if_neg h2, if_neg h2]
          by_cases h3 : (c == '"') = true
          · rw [if_pos h3, if_pos h3]
            exact ih .dq true tok acc
          · rw [if_neg h3, if_neg h3]
            by_cases h4 : (c == '\\') = true
            · rw [if_pos h4, if_pos h4]
              exact ih .escW started tok acc
            · rw [if_neg h4, if_neg h4]
              exact ih .word started (tok ++ [c]) acc
    | word =>
      simp only [shlexCore]
      by_cases h1 : isShWs c = true
      · rw [if_pos h1, if_pos h1]
        have hemit : emitTok tok started acc = acc ++ emitTok tok started [] := by
          simp [emitTok]
        rw [hemit, ih .out false [] (acc ++ emitTok tok started []),
          ih .out false [] (emitTok tok started [])]
        cases shlexCore .out false [] [] rest <;> simp [Except.map, List.append_assoc]
      · rw [if_neg h1, if_neg h1]
        by_cases h2 : (c == '\'') = true
        · rw [if_pos h2, if_pos h2]
          exact ih .sq true tok acc
        · rw [if_neg h2, if_neg h2]
          by_cases h3 : (c == '"') = true
          · rw [if_pos h3, if_pos h3]
            exact ih .dq true tok acc
          · rw [if_neg h3, if_neg h3]
            by_cases h4 : (c == '\\') = true
            · rw [if_pos h4, if_pos h4]
              exact ih .escW started tok acc
            · rw [if_neg h4, if_neg h4]
              exact ih .word started (tok ++ [c]) acc
    | sq =>
      simp only [shlexCore]
      by_cases h2 : (c == '\'') = true
      · rw [if_pos h2, if_pos h2]
        exact ih .word started tok acc
      · rw [if_neg h2, if_neg h2]
        exact ih .sq started (tok ++ [c]) acc
    | dq =>
      simp only [shlexCore]
      by_cases h2 : (c == '"') = true
      · rw [if_pos h2, if_pos h2]
        exact ih .word started tok acc
      · rw [if_neg h2, if_neg h2]
        by_cases h3 : (c == '\\') = true
        · rw [if_pos h3, if_pos h3]
          exact ih .escD started tok acc
        · rw [if_neg h3, if_neg h3]
          exact ih .dq started (tok ++ [c]) acc
    | escW =>
      simp only [shlexCore]
      exact ih .word started (tok ++ [c]) acc
    | escD =>
      simp only [shlexCore]
      by_cases h2 : (c == '"' || c == '\\') = true
      · rw [if_pos h2, if_pos h2]
        exact ih .dq started (tok ++ [c]) acc
      · rw [if_neg h2, if_neg h2]
        exact ih .dq started (tok ++ ['\\', c]) acc

theorem base_data (u rest : String) :
    ("curl '" ++ u ++ "' " ++ rest).data =
      "curl '".data ++ u.data ++ '\'' :: ' ' :: rest.data := by
  rw [String.data_append, String.data_append, String.data_append]
  simp [List.append_assoc]

theorem preprocess_base_quoted (u rest : String)
    (hnl : '\n' ∉ ("curl '" ++ u ++ "' " ++ rest).data) :
    preprocessCurl ("curl '" ++ u ++ "' " ++ rest) =
      ⟨'\'' :: (u.data ++ '\'' :: ' ' :: rest.data)⟩ := by
  unfold preprocessCurl
  dsimp only
  rw [pyReplace_id _ " \\\n" " " '\n' (by decide) hnl,
    pyReplace_id _ "\\\n" " " '\n' (by decide) hnl]
  have hsw : pyStartsWith ("curl '" ++ u ++ "' " ++ rest) "curl " = true := by
    unfold pyStartsWith
    rw [base_data]
    have hsplit : "curl '".data ++ u.data ++ '\'' :: ' ' :: rest.data =
        "curl ".data ++ ('\'' :: (u.data ++ '\'' :: ' ' :: rest.data)) := rfl
    rw [hsplit]
    exact isPrefixB_append _ _
  rw [hsw, if_pos rfl]
  unfold pyDrop
  refine congrArg String.mk ?_
  rw [base_data]
  rfl


theorem shlexSplit_quoted (u rest : String) (hq : '\'' ∉ u.data) :
    shlexSplit ⟨'\'' :: (u.data ++ '\'' :: ' ' :: rest.data)⟩ =
      (shlexSplit rest).map (u :: ·) := by
  unfold shlexSplit
  show (shlexCore .out false [] [] ('\'' :: (u.data ++ '\'' :: ' ' :: rest.data))).map _ = _
  rw [shlexCore_quoted_head u.data hq [] rest.data]
  simp only [List.nil_append]
  rw [shlexCore_acc rest.data .out false [] [u.data]]
  cases shlexCore .out false [] [] rest.data with
  | ok ts => rfl
  | error e => rfl

theorem parse_base_quoted (u rest : String) (hq : '\'' ∉ u.data)
    (hnl : '\n' ∉ ("curl '" ++ u ++ "' " ++ rest).data) :
    parse_curl_command ("curl '" ++ u ++ "' " ++ rest) =
      (match shlexSplit rest with
        | .ok tl => some ("curl" :: u :: tl)
        | .error _ => none) := by
  unfold parse_curl_command
  rw [preprocess_base_quoted u rest hnl, shlexSplit_quoted u rest hq]
  cases shlexSplit rest with
  | ok tl => rfl
  | error e => rfl

theorem matchCurlQuote_none {l : List Char} (h : isPrefixB "curl '".data l = false) :
    matchCurlQuote l = none := by
  unfold matchCurlQuote
  rw [h]
  simp

theorem reSubFuel_id (tmpl : List ReplPiece) :
    ∀ (f : Nat) (l : List Char), containsSub l "curl '".data = false →
      reSubFuel tmpl f l = l := by
  intro f
  induction f with
  | zero =>
    intro l h
    rfl
  | succ f ih =>
    intro l h
    cases l with
    | nil => rfl
    | cons c rest =>
      have hcs : containsSub (c :: rest) "curl '".data =
          (isPrefixB "curl '".data (c :: rest) || containsSub rest "curl '".data) := rfl
      rw [hcs] at h
      have h1 : isPrefixB "curl '".data (c :: rest) = false := by
        cases hv : isPrefixB "curl '".data (c :: rest) with
        | false => rfl
        | true =>
          rw [hv] at h
          exact Bool.noConfusion h
      have h2 : containsSub rest "curl '".data = false := by
        cases hv : containsSub rest "curl '".data with
        | false => rfl
        | true =>
          rw [hv] at h
          simp at h
      simp only [reSubFuel, matchCurlQuote_none h1]
      rw [ih rest h2]

theorem matchCurlQuote_head (u : String) (rest' : List Char) (hne : u ≠ "")
    (hq : '\'' ∉ u.data) :
    matchCurlQuote ("curl '".data ++ u.data ++ '\'' :: rest') = some (u.data, rest') := by
  unfold matchCurlQuote
  have hp : isPrefixB "curl '".data ("curl '".data ++ u.data ++ '\'' :: rest') = true :=
    isPrefixB_append _ _
  rw [hp, if_pos rfl]
  dsimp only
  have hdrop : ("curl '".data ++ u.data ++ '\'' :: rest').drop 6 = u.data ++ '\'' :: rest' := by
    have hlen : ("curl '".data).length = 6 := rfl
    rw [← hlen]
    exact List.drop_left _ _
  rw [hdrop]
  have hall : ∀ c ∈ u.data, (fun x => !(x == '\'')) c = true := by
    intro c hc
    have hcq : (c == '\'') = false := by
      simp only [beq_eq_false_iff_ne]
      intro he
      rw [he] at hc
      exact hq hc
    show (!(c == '\'')) = true
    rw [hcq]
    rfl
  obtain ⟨htw, hdw⟩ :=
    takeWhile_append_of_all (fun x => !(x == '\'')) u.data '\'' rest' hall (by decide)
  rw [htw, hdw]
  have hre : u.data.isEmpty = false := by
    cases hu : u.data with
    | nil =>
      exfalso
      apply hne
      cases u with
      | mk d =>
        have hd : d = [] := hu
        rw [hd]
    | cons _ _ => rfl
  rw [hre]
  simp

theorem parseTemplateFuel_lits :
    ∀ (f : Nat) (l : List Char), l.length < f → '\\' ∉ l →
      parseTemplateFuel f l = some (l.map ReplPiece.lit) := by
  intro f
  induction f with
  | zero =>
    intro l h hb
    exact absurd h (Nat.not_lt_zero _)
  | succ f ih =>
    intro l h hb
    cases l with
    | nil => rfl
    | cons c rest =>
      have hcn : ¬((c == '\\') = true) := by
        intro he
        apply hb
        rw [beq_iff_eq] at he
        rw [he]
        exact List.mem_cons_self _ _
      have hrb : '\\' ∉ rest := fun hr => hb (List.mem_cons_of_mem _ hr)
      have hlen : rest.length < f := by
        rw [List.length_cons] at h
        omega
      simp only [parseTemplateFuel]
      rw [if_neg hcn, ih rest hlen hrb]
      rfl

theorem parseTemplate_lits (l : List Char) (h : '\\' ∉ l) :
    parseTemplate l = some (l.map ReplPiece.lit) :=
  parseTemplateFuel_lits (l.length + 1) l (Nat.lt_succ_self _) h

theorem renderTemplate_lits :
    ∀ (l whole grp : List Char),
      renderTemplate (l.map ReplPiece.lit) whole grp = l := by
  intro l
  induction l with
  | nil =>
    intro whole grp
    rfl
  | cons c rest ih =>
    intro whole grp
    show c :: renderTemplate (rest.map ReplPiece.lit) whole grp = c :: rest
    rw [ih whole grp]

theorem reSubCurl_canonical (tmpl : List ReplPiece) (u rest : String) (hne : u ≠ "")
    (hq : '\'' ∉ u.data) (hr : containsSub rest.data "curl '".data = false) :
    reSubCurl tmpl ("curl '" ++ u ++ "' " ++ rest).data =
      renderTemplate tmpl ("curl '".data ++ u.data ++ ['\'']) u.data ++
        ' ' :: rest.data := by
  unfold reSubCurl
  rw [base_data]
  have hcons : "curl '".data ++ u.data ++ '\'' :: ' ' :: rest.data =
      'c' :: ("url '".data ++ u.data ++ '\'' :: ' ' :: rest.data) := rfl
  rw [hcons, List.length_cons]
  simp only [reSubFuel]
  rw [show matchCurlQuote ('c' :: ("url '".data ++ u.data ++ '\'' :: ' ' :: rest.data)) =
      some (u.data, ' ' :: rest.data) from matchCurlQuote_head u (' ' :: rest.data) hne hq]
  dsimp only
  have hsp : containsSub (' ' :: rest.data) "curl '".data = false := by
    have hcs : containsSub (' ' :: rest.data) "curl '".data =
        (isPrefixB "curl '".data (' ' :: rest.data) || containsSub rest.data "curl '".data) := rfl
    rw [hcs, hr]
    have hp : isPrefixB "curl '".data (' ' :: rest.data) = false := by
      show (('c' == ' ') && isPrefixB "url '".data rest.data) = false
      rw [show ('c' == ' ') = false from by decide]
      rfl
    rw [hp]
    rfl
  rw [reSubFuel_id tmpl _ (' ' :: rest.data) hsp]

theorem messages_url_data (org uuid : String) :
    (messages_url org uuid).data =
      "https://claude.ai/api/organizations/".data ++ org.data ++
        "/chat_conversations/".data ++ uuid.data ++
        "?tree=True&rendering_mode=messages&render_all_tools=true".data := by
  unfold messages_url
  rw [String.data_append, String.data_append, String.data_append, String.data_append]

theorem messages_url_no_char (org uuid : String)
    (horg : ∀ c ∈ org.data, isOrgChar c = true) (x : Char)
    (hx1 : x ∉ "https://claude.ai/api/organizations/".data)
    (hx2 : x ∉ "/chat_conversations/".data)
    (hx3 : x ∉ "?tree=True&rendering_mode=messages&render_all_tools=true".data)
    (hxu : x ∉ uuid.data) (hxo : isOrgChar x = false) :
    x ∉ (messages_url org uuid).data := by
  rw [messages_url_data]
  intro hm
  rcases List.mem_append.mp hm with h | h
  · rcases List.mem_append.mp h with h | h
    · rcases List.mem_append.mp h with h | h
      · rcases List.mem_append.mp h with h | h
        · exact hx1 h
        · have hx := horg x h
          rw [hxo] at hx
          exact Bool.noConfusion hx
      · exact hx2 h
    · exact hxu h
  · exact hx3 h

theorem build_messages_canonical (url rest uuid org : String)
    (hne : url ≠ "") (hq : '\'' ∉ url.data)
    (hstrip : pyStrip ("curl '" ++ url ++ "' " ++ rest) = "curl '" ++ url ++ "' " ++ rest)
    (hnl : '\n' ∉ ("curl '" ++ url ++ "' " ++ rest).data)
    (horg : findOrgId ("curl '" ++ url ++ "' " ++ rest).data = some org.data)
    (hrest : containsSub rest.data "curl '".data = false)
    (hub : '\\' ∉ uuid.data) :
    build_messages_curl ("curl '" ++ url ++ "' " ++ rest) uuid =
      some ("curl '" ++ messages_url org uuid ++ "' " ++ rest) := by
  unfold build_messages_curl
  rw [hstrip]
  dsimp only
  rw [horg]
  dsimp only
  rw [show (⟨org.data⟩ : String) = org from rfl]
  have horgchars : ∀ c ∈ org.data, isOrgChar c = true := by
    obtain ⟨pre, post, hdec, hne', hall⟩ := findOrgId_sound _ _ horg
    exact hall
  have hbsm : '\\' ∉ (messages_url org uuid).data :=
    messages_url_no_char org uuid horgchars '\\'
      (by decide) (by decide) (by decide) hub (by decide)
  have hbsr : '\\' ∉ ("curl '" ++ messages_url org uuid ++ "'").data := by
    rw [String.data_append, String.data_append]
    intro hm
    rcases List.mem_append.mp hm with hma | hmb
    · rcases List.mem_append.mp hma with hmc | hmd
      · exact absurd hmc (by decide)
      · exact hbsm hmd
    · exact absurd hmb (by decide)
  rw [pyReplace_id _ " \\\n" " " '\n' (by decide) hnl,
    pyReplace_id _ "\\\n" " " '\n' (by decide) hnl]
  rw [parseTemplate_lits _ hbsr]
  dsimp only
  rw [reSubCurl_canonical (("curl '" ++ messages_url org uuid ++ "'").data.map ReplPiece.lit)
    url rest hne hq hrest]
  rw [renderTemplate_lits]
  have hdata : ("curl '" ++ messages_url org uuid ++ "'").data ++ ' ' :: rest.data =
      ("curl '" ++ messages_url org uuid ++ "' " ++ rest).data := by
    rw [base_data, String.data_append, String.data_append]
    simp [List.append_assoc]
  rw [hdata]

/-- C4 (amended): for a single-line captured command in the single-quoted
invocation form `curl '<url>' <rest>` — nonempty quote-free URL, no leading
or trailing whitespace, an organization id present, no further `curl '`
occurrence in the remainder, and a conversation id free of quotes, newlines
and backslashes (a backslash would be processed as a replacement-template
escape by `re.sub`, not inserted literally) —
the derived message command produced by `build_messages_curl` tokenizes
(with the same tokenization `extract_messages` performs inline) to exactly
the base command's token sequence with only the URL token replaced by the
per-conversation messages URL; every other token is unchanged. -/
theorem build_messages_preserves_tokens (url rest uuid org : String)
    (tl : List String)
    (h1 : url ≠ "") (h2 : '\'' ∉ url.data)
    (h3 : '\n' ∉ ("curl '" ++ url ++ "' " ++ rest).data)
    (h4 : pyStrip ("curl '" ++ url ++ "' " ++ rest) = "curl '" ++ url ++ "' " ++ rest)
    (h5 : findOrgId ("curl '" ++ url ++ "' " ++ rest).data = some org.data)
    (h6 : containsSub rest.data "curl '".data = false)
    (h7 : '\'' ∉ uuid.data) (h8 : '\n' ∉ uuid.data)
    (h9 : parse_curl_command ("curl '" ++ url ++ "' " ++ rest) =
      some ("curl" :: url :: tl))
    (h10 : '\\' ∉ uuid.data) :
    build_messages_curl ("curl '" ++ url ++ "' " ++ rest) uuid =
      some ("curl '" ++ messages_url org uuid ++ "' " ++ rest) ∧
    extract_messages_args ("curl '" ++ url ++ "' " ++ rest) uuid =
      some ("curl" :: messages_url org uuid :: tl) := by
  have hb := build_messages_canonical url rest uuid org h1 h2 h4 h3 h5 h6 h10
  refine ⟨hb, ?_⟩
  unfold extract_messages_args
  rw [hb]
  have horgchars : ∀ c ∈ org.data, isOrgChar c = true := by
    obtain ⟨pre, post, hdec, hne', hall⟩ := findOrgId_sound _ _ h5
    exact hall
  have hqm : '\'' ∉ (messages_url org uuid).data :=
    messages_url_no_char org uuid horgchars '\''
      (by decide) (by decide) (by decide) h7 (by decide)
  have hnlm : '\n' ∉ (messages_url org uuid).data :=
    messages_url_no_char org uuid horgchars '\n'
      (by decide) (by decide) (by decide) h8 (by decide)
  have hrestnl : '\n' ∉ rest.data := by
    intro hr2
    apply h3
    rw [base_data]
    exact List.mem_append_right _ (by simp [hr2])
  have hnld : '\n' ∉ ("curl '" ++ messages_url org uuid ++ "' " ++ rest).data := by
    rw [base_data]
    intro hm
    rcases List.mem_append.mp hm with hma | hmb
    · rcases List.mem_append.mp hma with hmc | hmd
      · exact absurd hmc (by decide)
      · exact hnlm hmd
    · simp only [List.mem_cons] at hmb
      rcases hmb with h | h | h
      · exact absurd h (by decide)
      · exact absurd h (by decide)
      · exact hrestnl h
  dsimp only
  rw [preprocess_base_quoted (messages_url org uuid) rest hnld,
    shlexSplit_quoted (messages_url org uuid) rest hqm]
  have hrest_tokens : shlexSplit rest = .ok tl := by
    have hp := parse_base_quoted url rest h2 h3
    rw [h9] at hp
    cases hsr : shlexSplit rest with
    | ok tl' =>
      rw [hsr] at hp
      have hinj := Option.some.inj hp
      have hinj2 := (List.cons.inj hinj).2
      have hinj3 := (List.cons.inj hinj2).2
      rw [hinj3]
    | error e =>
      rw [hsr] at hp
      exact Option.noConfusion hp
  rw [hrest_tokens]
  rfl

/-- Witness for `build_messages_preserves_tokens` at a concrete base
command. -/
theorem build_messages_preserves_tokens_witness :
    build_messages_curl
        ("curl '" ++ "https://claude.ai/api/organizations/ab/x" ++ "' " ++ "-H 'k: v'") "c1" =
      some ("curl '" ++ messages_url "ab" "c1" ++ "' " ++ "-H 'k: v'") ∧
    extract_messages_args
        ("curl '" ++ "https://claude.ai/api/organizations/ab/x" ++ "' " ++ "-H 'k: v'") "c1" =
      some ("curl" :: messages_url "ab" "c1" :: ["-H", "k: v"]) :=
  build_messages_preserves_tokens "https://claude.ai/api/organizations/ab/x"
    "-H 'k: v'" "c1" "ab" ["-H", "k: v"]
    (by decide) (by decide) (by decide) (by decide) (by decide) (by decide)
    (by decide) (by decide) (by decide) (by decide)

set_option maxRecDepth 10000 in
/-- Counterexample to C4 as stated: a captured command whose URL is
double-quoted contains an `/organizations/<id>/` segment, yet the derived
message command is textually identical to the base — its token sequence
keeps the original URL token instead of the per-conversation messages URL. -/
theorem build_messages_curl_counterexample :
    build_messages_curl "curl \"https://claude.ai/api/organizations/abc/x\"" "u1" =
      some "curl \"https://claude.ai/api/organizations/abc/x\"" ∧
    extract_messages_args "curl \"https://claude.ai/api/organizations/abc/x\"" "u1" =
      some ["curl", "https://claude.ai/api/organizations/abc/x"] ∧
    "https://claude.ai/api/organizations/abc/x" ≠ messages_url "abc" "u1" := by
  refine ⟨by decide, by decide, by decide⟩
